import Mathlib

/-!
Verification of the state/notification/history engine of the repository
(src/public/viewer/pc/observer.mjs), shallowly embedded in Lean.

The embedding follows the source file closely:
- JavaScript primitive values become the type Prim (null, undefined, booleans,
  integers, strings); plain JSON-like data becomes JVal.
- The internal node structure of an Observer (the pair of the _keys list and
  the _data map, plus the stored _path string) becomes Value.node; raw arrays
  become Value.arr; plain objects kept raw inside nested arrays become
  Value.pobj.
- Mutating methods become pure functions returning the new tree, the returned
  value of the JS method and the list of emitted events.  A method that can
  raise a TypeError (property access on undefined or null) returns an Except,
  with Except.error standing for the thrown exception.
- The History class becomes an explicit state machine HistoryState with one
  transition per public operation.
-/

namespace Obs

/-- JavaScript primitive values used by the observer: null, undefined,
booleans, (integer) numbers and strings. -/
inductive Prim where
  | null
  | undef
  | bool (b : Bool)
  | num (n : Int)
  | str (s : String)
  deriving DecidableEq, Repr

/-- Plain JSON-like JavaScript values: primitives, arrays and plain objects
with insertion-ordered keys. -/
inductive JVal where
  | prim (p : Prim)
  | arr (xs : List JVal)
  | obj (kvs : List (String × JVal))

mutual

/-- Structural equality test on JVal (the derived instance is unavailable for
this nested inductive, so it is written out). -/
def JVal.beq : JVal → JVal → Bool
  | .prim p, .prim q => p == q
  | .arr xs, .arr ys => JVal.beqList xs ys
  | .obj kvs, .obj lvs => JVal.beqKvs kvs lvs
  | _, _ => false

def JVal.beqList : List JVal → List JVal → Bool
  | [], [] => true
  | x :: xs, y :: ys => JVal.beq x y && JVal.beqList xs ys
  | _, _ => false

def JVal.beqKvs : List (String × JVal) → List (String × JVal) → Bool
  | [], [] => true
  | (k, x) :: xs, (l, y) :: ys => k == l && JVal.beq x y && JVal.beqKvs xs ys
  | _, _ => false

end

mutual

theorem JVal.beq_iff : ∀ a b : JVal, JVal.beq a b = true ↔ a = b
  | .prim p, .prim q => by simp [JVal.beq]
  | .prim _, .arr _ => by simp [JVal.beq]
  | .prim _, .obj _ => by simp [JVal.beq]
  | .arr _, .prim _ => by simp [JVal.beq]
  | .arr xs, .arr ys => by
    simp only [JVal.beq, JVal.arr.injEq]
    exact JVal.beqList_iff xs ys
  | .arr _, .obj _ => by simp [JVal.beq]
  | .obj _, .prim _ => by simp [JVal.beq]
  | .obj _, .arr _ => by simp [JVal.beq]
  | .obj kvs, .obj lvs => by
    simp only [JVal.beq, JVal.obj.injEq]
    exact JVal.beqKvs_iff kvs lvs

theorem JVal.beqList_iff : ∀ xs ys : List JVal, JVal.beqList xs ys = true ↔ xs = ys
  | [], [] => by simp [JVal.beqList]
  | [], _ :: _ => by simp [JVal.beqList]
  | _ :: _, [] => by simp [JVal.beqList]
  | x :: xs, y :: ys => by
    simp only [JVal.beqList, Bool.and_eq_true, List.cons.injEq]
    exact and_congr (JVal.beq_iff x y) (JVal.beqList_iff xs ys)

theorem JVal.beqKvs_iff : ∀ xs ys : List (String × JVal),
    JVal.beqKvs xs ys = true ↔ xs = ys
  | [], [] => by simp [JVal.beqKvs]
  | [], _ :: _ => by simp [JVal.beqKvs]
  | _ :: _, [] => by simp [JVal.beqKvs]
  | (k, x) :: xs, (l, y) :: ys => by
    simp only [JVal.beqKvs, Bool.and_eq_true, List.cons.injEq, Prod.mk.injEq]
    rw [JVal.beq_iff x y, JVal.beqKvs_iff xs ys, beq_iff_eq, and_assoc]

end

instance : DecidableEq JVal := fun a b => decidable_of_iff _ (JVal.beq_iff a b)

/-- JavaScript truthiness of a primitive. -/
def Prim.truthy : Prim → Bool
  | .null => false
  | .undef => false
  | .bool b => b
  | .num n => n != 0
  | .str s => s ≠ ""

/-- Abbreviation for the JSON null value. -/
def JVal.null : JVal := .prim .null

/-- Abbreviation for the JSON undefined value. -/
def JVal.undefined : JVal := JVal.prim Prim.undef

/-- Abbreviation for a JSON number. -/
def JVal.num (n : Int) : JVal := .prim (.num n)

/-- Abbreviation for a JSON string. -/
def JVal.str (s : String) : JVal := .prim (.str s)

/-- JavaScript truthiness of a JVal: arrays and objects are always truthy. -/
def JVal.truthy : JVal → Bool
  | .prim p => p.truthy
  | .arr _ => true
  | .obj _ => true

/-- The test performed by writing typeof v === "object" in JS, which is true
for arrays, plain objects and null. -/
def JVal.typeofObject : JVal → Bool
  | .prim .null => true
  | .prim _ => false
  | .arr _ => true
  | .obj _ => true

/-- The test v instanceof Array. -/
def JVal.isArr : JVal → Bool
  | .arr _ => true
  | _ => false

/-- The test v instanceof Object (arrays and plain objects; null fails it). -/
def JVal.isObj : JVal → Bool
  | .arr _ => true
  | .obj _ => true
  | _ => false

/-- Lookup in an insertion-ordered key/value list (a JavaScript object). -/
def lookupKv : List (String × JVal) → String → Option JVal
  | [], _ => none
  | (k, v) :: rest, key => if k = key then some v else lookupKv rest key

/-- The verbs of the five mutation events. -/
inductive Verb where
  | set | unset | insert | remove | move
  deriving DecidableEq, Repr

/-- One call of Events.emit made by a mutation.  Every effective change makes
two such calls: a targeted one (wild = false, name path:verb) and a wildcard
one (wild = true, name *:verb with the path prepended to the arguments).
The silenced flag records whether the emit happened inside a silence()
window, during which any attached history or sync recorder is disabled;
silenced events are still delivered to listeners. -/
structure Event where
  wild : Bool
  path : String
  verb : Verb
  /-- Primary argument: the new value for set and insert and move, the old
  value for unset, the removed value for remove. -/
  value : JVal
  /-- Secondary argument: the old value for set, the index for insert and
  remove, the new index for move; undefined when the verb has no such
  argument. -/
  arg2 : JVal
  /-- Third argument: the old index for move; undefined otherwise. -/
  arg3 : JVal
  remote : Bool
  silenced : Bool
  deriving DecidableEq

/-- Both emit calls of one effective change: the targeted event followed by
the wildcard event. -/
def emitPair (path : String) (verb : Verb) (value arg2 arg3 : JVal)
    (remote silenced : Bool) : List Event :=
  [⟨false, path, verb, value, arg2, arg3, remote, silenced⟩,
   ⟨true, path, verb, value, arg2, arg3, remote, silenced⟩]

end Obs

namespace Obs

/-!
The History class (observer.mjs lines 350-564): a cursor-based undo/redo log.
Actions are generic in the type of their undo/redo closures; a closure field
is an Option so that History.add can reject an action that lacks one, the
way the source checks the truthiness of action.name, action.undo and
action.redo.
-/

/-- A history action: a name, the combine flag and the two closures.  The
closure fields hold none when the caller forgot them, mirroring the
truthiness checks in History.add; an empty name likewise counts as missing
because the empty string is falsy. -/
structure HAct (α : Type) where
  name : String
  combine : Bool
  undo : Option α
  redo : Option α

/-- The state of a History instance: the action list, the cursor
(_currentActionIndex, -1 before the first action), the cached _canUndo and
_canRedo flags and the executing counter. -/
structure HistoryState (α : Type) where
  actions : List (HAct α)
  cursor : Int
  canUndoFlag : Bool
  canRedoFlag : Bool
  executing : Nat

/-- The freshly constructed History. -/
def HistoryState.init (α : Type) : HistoryState α :=
  ⟨[], -1, false, false, 0⟩

/-- The currentAction getter: the action at the cursor, none when the cursor
is out of range. -/
def HistoryState.currentAction (s : HistoryState α) : Option (HAct α) :=
  if h : 0 ≤ s.cursor ∧ s.cursor.toNat < s.actions.length then
    some (s.actions.get ⟨s.cursor.toNat, h.2⟩)
  else none

/-- The canUndo getter: the cached flag gated by the executing counter. -/
def HistoryState.canUndo (s : HistoryState α) : Bool :=
  s.canUndoFlag && s.executing == 0

/-- The canRedo getter: the cached flag gated by the executing counter. -/
def HistoryState.canRedo (s : HistoryState α) : Bool :=
  s.canRedoFlag && s.executing == 0

/-- The truncation step of History.add: if an action is added after some
actions have been undone, remove all actions after the current one. -/
def HistoryState.truncate (s : HistoryState α) : HistoryState α :=
  if s.cursor ≠ (s.actions.length : Int) - 1 then
    { s with actions := s.actions.take (s.cursor + 1).toNat }
  else s

/-- The append-or-combine step of History.add: when the combine flag is set
and the current action carries the same name, replace only the current
action's redo closure; otherwise append the action and move the cursor to
it. -/
def HistoryState.pushAction (s : HistoryState α) (a : HAct α) : HistoryState α :=
  match s.currentAction with
  | some cur =>
    if a.combine && cur.name == a.name then
      { s with actions := s.actions.set s.cursor.toNat { cur with redo := a.redo } }
    else
      { s with actions := s.actions ++ [a], cursor := (s.actions.length : Int) }
  | none => { s with actions := s.actions ++ [a], cursor := (s.actions.length : Int) }

/-- History.add.  Returns the new state and the boolean result.  Follows the
source exactly: reject an action with a missing (falsy) name, undo or redo;
truncate, then append or combine; finally cache canUndo true and canRedo
false. -/
def HistoryState.add (s : HistoryState α) (a : HAct α) :
    HistoryState α × Bool :=
  if a.name = "" then (s, false)
  else if a.undo.isNone then (s, false)
  else if a.redo.isNone then (s, false)
  else ({ s.truncate.pushAction a with canUndoFlag := true, canRedoFlag := false },
        true)

/-- The synchronous head of History.undo, up to and including the increment
of the executing counter: when canUndo holds, move the cursor down, drop the
cached canUndo flag if the cursor went below zero, cache canRedo true, and
enter the executing section.  The awaited closure body is not part of the
stack state. -/
def HistoryState.undoBegin (s : HistoryState α) : HistoryState α :=
  if s.canUndo then
    { s with cursor := s.cursor - 1,
             canUndoFlag := if s.cursor - 1 < 0 then false else s.canUndoFlag,
             canRedoFlag := true,
             executing := s.executing + 1 }
  else s

/-- The synchronous head of History.redo: when canRedo holds, move the cursor
up, cache canUndo true, drop the cached canRedo flag when the cursor reached
the tail, and enter the executing section. -/
def HistoryState.redoBegin (s : HistoryState α) : HistoryState α :=
  if s.canRedo then
    { s with cursor := s.cursor + 1,
             canUndoFlag := true,
             canRedoFlag :=
               if s.cursor + 1 = (s.actions.length : Int) - 1 then false
               else s.canRedoFlag,
             executing := s.executing + 1 }
  else s

/-- The guaranteed-cleanup decrement of the executing counter that ends an
undo, redo or addAndExecute, reached whether or not the closure failed. -/
def HistoryState.finishExec (s : HistoryState α) : HistoryState α :=
  if s.executing = 0 then s else { s with executing := s.executing - 1 }

/-- History.addAndExecute up to the await: add, and on success enter the
executing section around the redo closure. -/
def HistoryState.addAndExecuteBegin (s : HistoryState α) (a : HAct α) :
    HistoryState α :=
  if (s.add a).2 then { (s.add a).1 with executing := (s.add a).1.executing + 1 }
  else (s.add a).1

/-- History.clear: empty the list and reset the cursor and the flags; a
no-op on an empty list. -/
def HistoryState.clear (s : HistoryState α) : HistoryState α :=
  if s.actions.isEmpty then s
  else { s with actions := [], cursor := -1,
                canUndoFlag := false, canRedoFlag := false }

/-- The operations a client can perform on a History stack.  The closure
executions of undo, redo and addAndExecute are split into a begin step and a
finishExec step so that states with a running closure are reachable states
of the machine. -/
inductive HOp (α : Type) where
  | add (a : HAct α)
  | addAndExecuteBegin (a : HAct α)
  | undoBegin
  | redoBegin
  | finishExec
  | clear

/-- One transition of the History machine. -/
def hstep (s : HistoryState α) : HOp α → HistoryState α
  | .add a => (s.add a).1
  | .addAndExecuteBegin a => s.addAndExecuteBegin a
  | .undoBegin => s.undoBegin
  | .redoBegin => s.redoBegin
  | .finishExec => s.finishExec
  | .clear => s.clear

/-- The state after running a list of operations from the initial state. -/
def runOps (α : Type) (ops : List (HOp α)) : HistoryState α :=
  ops.foldl hstep (HistoryState.init α)

/-- Helper: an iff whose left side is the equation true = true holds exactly
when its right side does. -/
theorem boolTrueIff (p : Prop) : (((true : Bool) = true) ↔ p) ↔ p := by simp

/-- Helper: an iff whose left side is the equation false = true holds exactly
when its right side fails. -/
theorem boolFalseIff (p : Prop) : (((false : Bool) = true) ↔ p) ↔ ¬p := by simp

/-- The inductive invariant of the History machine: the cursor stays inside
[-1, length - 1] and the cached flags track the cursor position exactly. -/
def HInv (s : HistoryState α) : Prop :=
  -1 ≤ s.cursor ∧ s.cursor ≤ (s.actions.length : Int) - 1 ∧
    (s.canUndoFlag = true ↔ 0 ≤ s.cursor) ∧
    (s.canRedoFlag = true ↔ s.cursor < (s.actions.length : Int) - 1)

theorem hinv_init : HInv (HistoryState.init α) := by
  refine ⟨le_refl _, ?_, ?_, ?_⟩
  · show (-1 : Int) ≤ (List.length ([] : List (HAct α)) : Int) - 1
    simp
  · show ((false : Bool) = true) ↔ (0 : Int) ≤ -1
    rw [boolFalseIff]
    omega
  · show ((false : Bool) = true) ↔
      (-1 : Int) < (List.length ([] : List (HAct α)) : Int) - 1
    rw [boolFalseIff]
    simp

/-- After truncation the cursor is unchanged and points at the tail of the
action list (or the list is empty with the cursor at -1). -/
theorem truncate_spec (s : HistoryState α) (h1 : -1 ≤ s.cursor)
    (h2 : s.cursor ≤ (s.actions.length : Int) - 1) :
    ((s.truncate).actions.length : Int) = s.cursor + 1 ∧
      s.truncate.cursor = s.cursor ∧ s.truncate.executing = s.executing := by
  unfold HistoryState.truncate
  split
  · refine ⟨?_, rfl, rfl⟩
    simp only [List.length_take]
    omega
  · rename_i heq
    rw [not_not] at heq
    exact ⟨by omega, rfl, rfl⟩

/-- When the action is well-formed, History.add truncates, then appends or
combines, and caches canUndo true and canRedo false. -/
theorem add_valid_eq (s : HistoryState α) (a : HAct α)
    (hn : a.name ≠ "") (hu : a.undo.isNone = false) (hr : a.redo.isNone = false) :
    s.add a =
      ({ s.truncate.pushAction a with canUndoFlag := true, canRedoFlag := false },
       true) := by
  unfold HistoryState.add
  rw [if_neg hn, if_neg (by simp [hu]), if_neg (by simp [hr])]

theorem currentAction_some {s : HistoryState α} {cur : HAct α}
    (h : s.currentAction = some cur) :
    ∃ hlt : s.cursor.toNat < s.actions.length,
      0 ≤ s.cursor ∧ s.actions.get ⟨s.cursor.toNat, hlt⟩ = cur := by
  unfold HistoryState.currentAction at h
  split at h
  · rename_i hcond
    cases h
    exact ⟨hcond.2, hcond.1, rfl⟩
  · cases h

theorem pushAction_none (t : HistoryState α) (a : HAct α)
    (hco : t.currentAction = none) :
    t.pushAction a =
      { t with actions := t.actions ++ [a], cursor := (t.actions.length : Int) } := by
  unfold HistoryState.pushAction
  rw [hco]

theorem pushAction_combine (t : HistoryState α) (a cur : HAct α)
    (hco : t.currentAction = some cur)
    (hcmb : (a.combine && cur.name == a.name) = true) :
    t.pushAction a =
      { t with actions :=
          t.actions.set t.cursor.toNat { cur with redo := a.redo } } := by
  unfold HistoryState.pushAction
  rw [hco]
  simp only [hcmb, if_true]

theorem pushAction_nocombine (t : HistoryState α) (a cur : HAct α)
    (hco : t.currentAction = some cur)
    (hcmb : (a.combine && cur.name == a.name) = false) :
    t.pushAction a =
      { t with actions := t.actions ++ [a], cursor := (t.actions.length : Int) } := by
  unfold HistoryState.pushAction
  rw [hco]
  simp only [hcmb]
  rfl

theorem hinv_add (s : HistoryState α) (a : HAct α) (h : HInv s) :
    HInv (s.add a).1 := by
  obtain ⟨h1, h2, h3, h4⟩ := h
  unfold HistoryState.add
  split
  · exact ⟨h1, h2, h3, h4⟩
  split
  · exact ⟨h1, h2, h3, h4⟩
  split
  · exact ⟨h1, h2, h3, h4⟩
  obtain ⟨hlen, hcur, _⟩ := truncate_spec s h1 h2
  generalize s.truncate = t at hlen hcur
  rcases hco : t.currentAction with _ | cur
  · rw [pushAction_none t a hco]
    refine ⟨?_, ?_, ?_, ?_⟩
    · show -1 ≤ (t.actions.length : Int)
      omega
    · show (t.actions.length : Int) ≤ ((t.actions ++ [a]).length : Int) - 1
      simp only [List.length_append, List.length_singleton]
      push_cast
      omega
    · show ((true : Bool) = true) ↔ 0 ≤ (t.actions.length : Int)
      rw [boolTrueIff]
      omega
    · show ((false : Bool) = true) ↔
        (t.actions.length : Int) < ((t.actions ++ [a]).length : Int) - 1
      rw [boolFalseIff]
      simp only [List.length_append, List.length_singleton]
      push_cast
      omega
  · obtain ⟨hlt, hc0, _⟩ := currentAction_some hco
    by_cases hcmb : (a.combine && cur.name == a.name) = true
    · rw [pushAction_combine t a cur hco hcmb]
      refine ⟨?_, ?_, ?_, ?_⟩
      · show -1 ≤ t.cursor
        omega
      · show t.cursor ≤ ((t.actions.set t.cursor.toNat _).length : Int) - 1
        simp only [List.length_set]
        omega
      · show ((true : Bool) = true) ↔ 0 ≤ t.cursor
        rw [boolTrueIff]
        omega
      · show ((false : Bool) = true) ↔
          t.cursor < ((t.actions.set t.cursor.toNat _).length : Int) - 1
        rw [boolFalseIff]
        simp only [List.length_set, not_lt]
        omega
    · rw [pushAction_nocombine t a cur hco (by simpa using hcmb)]
      refine ⟨?_, ?_, ?_, ?_⟩
      · show -1 ≤ (t.actions.length : Int)
        omega
      · show (t.actions.length : Int) ≤ ((t.actions ++ [a]).length : Int) - 1
        simp only [List.length_append, List.length_singleton]
        push_cast
        omega
      · show ((true : Bool) = true) ↔ 0 ≤ (t.actions.length : Int)
        rw [boolTrueIff]
        omega
      · show ((false : Bool) = true) ↔
          (t.actions.length : Int) < ((t.actions ++ [a]).length : Int) - 1
        rw [boolFalseIff]
        simp only [List.length_append, List.length_singleton]
        push_cast
        omega

theorem hinv_undoBegin (s : HistoryState α) (h : HInv s) : HInv s.undoBegin := by
  obtain ⟨h1, h2, h3, h4⟩ := h
  unfold HistoryState.undoBegin
  split
  · rename_i hc
    have hcur : 0 ≤ s.cursor := by
      rw [HistoryState.canUndo, Bool.and_eq_true] at hc
      exact h3.mp hc.1
    refine ⟨?_, ?_, ?_, ?_⟩
    · show -1 ≤ s.cursor - 1
      omega
    · show s.cursor - 1 ≤ (s.actions.length : Int) - 1
      omega
    · show (if s.cursor - 1 < 0 then false else s.canUndoFlag) = true ↔
        0 ≤ s.cursor - 1
      split
      · rw [boolFalseIff]
        omega
      · rw [h3]
        omega
    · show ((true : Bool) = true) ↔ s.cursor - 1 < (s.actions.length : Int) - 1
      rw [boolTrueIff]
      omega
  · exact ⟨h1, h2, h3, h4⟩

theorem hinv_redoBegin (s : HistoryState α) (h : HInv s) : HInv s.redoBegin := by
  obtain ⟨h1, h2, h3, h4⟩ := h
  unfold HistoryState.redoBegin
  split
  · rename_i hc
    have hcur : s.cursor < (s.actions.length : Int) - 1 := by
      rw [HistoryState.canRedo, Bool.and_eq_true] at hc
      exact h4.mp hc.1
    refine ⟨?_, ?_, ?_, ?_⟩
    · show -1 ≤ s.cursor + 1
      omega
    · show s.cursor + 1 ≤ (s.actions.length : Int) - 1
      omega
    · show ((true : Bool) = true) ↔ 0 ≤ s.cursor + 1
      rw [boolTrueIff]
      omega
    · show (if s.cursor + 1 = (s.actions.length : Int) - 1 then false
          else s.canRedoFlag) = true ↔
        s.cursor + 1 < (s.actions.length : Int) - 1
      split
      · rw [boolFalseIff]
        omega
      · rw [h4]
        omega
  · exact ⟨h1, h2, h3, h4⟩

theorem hinv_finishExec (s : HistoryState α) (h : HInv s) : HInv s.finishExec := by
  obtain ⟨h1, h2, h3, h4⟩ := h
  unfold HistoryState.finishExec
  split
  · exact ⟨h1, h2, h3, h4⟩
  · exact ⟨h1, h2, h3, h4⟩

theorem hinv_clear (s : HistoryState α) (h : HInv s) : HInv s.clear := by
  obtain ⟨h1, h2, h3, h4⟩ := h
  unfold HistoryState.clear
  split
  · exact ⟨h1, h2, h3, h4⟩
  · refine ⟨le_refl _, ?_, ?_, ?_⟩
    · show (-1 : Int) ≤ (List.length ([] : List (HAct α)) : Int) - 1
      simp
    · show ((false : Bool) = true) ↔ (0 : Int) ≤ -1
      rw [boolFalseIff]
      omega
    · show ((false : Bool) = true) ↔
        (-1 : Int) < (List.length ([] : List (HAct α)) : Int) - 1
      rw [boolFalseIff]
      simp

theorem hinv_addAndExecuteBegin (s : HistoryState α) (a : HAct α)
    (h : HInv s) : HInv (s.addAndExecuteBegin a) := by
  have hadd := hinv_add s a h
  unfold HistoryState.addAndExecuteBegin
  obtain ⟨h1, h2, h3, h4⟩ := hadd
  split
  · exact ⟨h1, h2, h3, h4⟩
  · exact ⟨h1, h2, h3, h4⟩

theorem hinv_step (s : HistoryState α) (op : HOp α) (h : HInv s) :
    HInv (hstep s op) := by
  cases op with
  | add a => exact hinv_add s a h
  | addAndExecuteBegin a => exact hinv_addAndExecuteBegin s a h
  | undoBegin => exact hinv_undoBegin s h
  | redoBegin => exact hinv_redoBegin s h
  | finishExec => exact hinv_finishExec s h
  | clear => exact hinv_clear s h

theorem hinv_runOps (ops : List (HOp α)) : HInv (runOps α ops) := by
  rw [runOps]
  induction ops using List.reverseRecOn with
  | nil => exact hinv_init
  | append_singleton ops op ih =>
    rw [List.foldl_append, List.foldl_cons, List.foldl_nil]
    exact hinv_step _ op ih

end Obs

namespace Obs

/-- C5: in every reachable History state the cursor lies in [-1, length - 1],
canUndo reads true exactly when the cursor is nonnegative and the executing
counter is zero, and canRedo reads true exactly when the cursor is below
length - 1 and the executing counter is zero. -/
theorem c5_history_invariant (α : Type) (ops : List (HOp α)) :
    -1 ≤ (runOps α ops).cursor ∧
    (runOps α ops).cursor ≤ ((runOps α ops).actions.length : Int) - 1 ∧
    ((runOps α ops).canUndo = true ↔
      0 ≤ (runOps α ops).cursor ∧ (runOps α ops).executing = 0) ∧
    ((runOps α ops).canRedo = true ↔
      (runOps α ops).cursor < ((runOps α ops).actions.length : Int) - 1 ∧
        (runOps α ops).executing = 0) := by
  obtain ⟨h1, h2, h3, h4⟩ := hinv_runOps (α := α) ops
  refine ⟨h1, h2, ?_, ?_⟩
  · rw [HistoryState.canUndo, Bool.and_eq_true, h3, beq_iff_eq]
  · rw [HistoryState.canRedo, Bool.and_eq_true, h4, beq_iff_eq]

end Obs

namespace Obs

/-!
Claim C6: History.add with a matching combine action.  The source first
truncates the action list whenever the cursor is not at the tail, so the
claim only holds when no actions are currently undone; the counterexample
below exercises the truncation.
-/

/-- A two-action stack in which the second action has been undone: the cursor
sits on the first action. -/
def c6state : HistoryState Nat :=
  { actions := [⟨"x", false, some 1, some 2⟩, ⟨"y", false, some 3, some 4⟩],
    cursor := 0, canUndoFlag := true, canRedoFlag := true, executing := 0 }

/-- A combine action whose name matches the current action of c6state. -/
def c6act : HAct Nat := ⟨"x", true, some 10, some 20⟩

/-- C6 counterexample: with the cursor away from the tail, add with a
matching combine action does not leave the action list length unchanged:
the undone action is discarded (length 2 becomes 1), falsifying the claim
that only the top redo closure changes. -/
theorem c6_counterexample :
    c6act.combine = true ∧
    c6state.currentAction = some ⟨"x", false, some 1, some 2⟩ ∧
    (c6state.add c6act).1.actions.length = 1 ∧
    c6state.actions.length = 2 := by
  refine ⟨rfl, ?_, ?_, rfl⟩
  · rfl
  · rfl

/-- C6 (amended): when the cursor is at the tail of the action list (no
undone actions) and add receives an action with the combine flag whose name
matches the current action, the action list keeps its length, the cursor is
unchanged, the current action keeps its name and undo closure and only its
redo closure is replaced, and every other stored action is unchanged. -/
theorem c6_combine_in_place {α : Type} (s : HistoryState α) (a cur : HAct α)
    (htail : s.cursor = (s.actions.length : Int) - 1)
    (hcur : s.currentAction = some cur)
    (hcomb : a.combine = true) (hname : cur.name = a.name)
    (hn : a.name ≠ "") (hu : a.undo.isNone = false) (hr : a.redo.isNone = false) :
    (s.add a).2 = true ∧
    (s.add a).1.actions.length = s.actions.length ∧
    (s.add a).1.cursor = s.cursor ∧
    (s.add a).1.actions[s.cursor.toNat]? =
      some { cur with redo := a.redo } ∧
    ∀ i : Nat, i ≠ s.cursor.toNat →
      (s.add a).1.actions[i]? = s.actions[i]? := by
  obtain ⟨hlt, hge, hget⟩ := currentAction_some hcur
  have htr : s.truncate = s := by
    unfold HistoryState.truncate
    rw [if_neg]
    simp only [ne_eq, not_not]
    exact htail
  have hpush : s.pushAction a =
      { s with actions := s.actions.set s.cursor.toNat { cur with redo := a.redo } } := by
    exact pushAction_combine s a cur hcur (by rw [hcomb, hname]; simp)
  rw [add_valid_eq s a hn hu hr, htr, hpush]
  refine ⟨rfl, ?_, rfl, ?_, ?_⟩
  · exact List.length_set s.actions _ _
  · show (s.actions.set s.cursor.toNat { cur with redo := a.redo })[s.cursor.toNat]? =
      some { cur with redo := a.redo }
    rw [List.getElem?_set_self']
    rw [List.getElem?_eq_getElem hlt]
    rfl
  · intro i hi
    show (s.actions.set s.cursor.toNat { cur with redo := a.redo })[i]? = s.actions[i]?
    rw [List.getElem?_set_ne (by omega)]

end Obs

namespace Obs

/-- A one-action stack with the cursor at the tail. -/
def c6wstate : HistoryState Nat :=
  { actions := [⟨"x", false, some 1, some 2⟩], cursor := 0,
    canUndoFlag := true, canRedoFlag := false, executing := 0 }

/-- A combine action matching the single action of c6wstate. -/
def c6wact : HAct Nat := ⟨"x", true, some 5, some 6⟩

/-- Witness for c6_combine_in_place at a concrete one-action stack. -/
theorem c6_combine_in_place_witness :
    (c6wstate.add c6wact).1.actions.length = c6wstate.actions.length ∧
    (c6wstate.add c6wact).1.cursor = c6wstate.cursor ∧
    (c6wstate.add c6wact).1.actions[(0 : Nat)]? =
      some { name := "x", combine := false, undo := some 1, redo := some 6 } := by
  have h := c6_combine_in_place c6wstate c6wact
    ⟨"x", false, some 1, some 2⟩ (by decide) rfl rfl rfl (by decide) rfl rfl
  exact ⟨h.2.1, h.2.2.1, h.2.2.2.1⟩

end Obs

namespace Obs

/-!
Events.emit (observer.mjs lines 190-216): dispatch to the snapshot of the
listener list with a per-listener try/catch, then fan-out to the additional
emitters.  A listener is modelled by an identifier plus whether its callback
raises; the Except layer carries an exception escaping emit.
-/

/-- A registered listener: an identifier and whether its callback raises
when invoked. -/
structure Listener where
  id : Nat
  throws : Bool

/-- Invoking a listener callback; error is a raised exception. -/
def callListener (l : Listener) : Except Unit Unit :=
  if l.throws then .error () else .ok ()

/-- The dispatch loop of Events.emit over the snapshot of the listener list:
a null slot is skipped (the if-continue guard), every other listener is
invoked inside try/catch, a raised exception is caught and logged and the
loop continues.  Returns the identifiers of the invoked listeners in order;
an error result would mean an exception escaping the loop. -/
def dispatchList : List (Option Listener) → Except Unit (List Nat)
  | [] => .ok []
  | none :: rest => dispatchList rest
  | some l :: rest =>
    match callListener l with
    | .ok _ => do
      let ids ← dispatchList rest
      pure (l.id :: ids)
    | .error _ => do
      -- caught: the exception is logged and dispatch continues
      let ids ← dispatchList rest
      pure (l.id :: ids)

/-- An event channel as far as one emit call is concerned: its suspendEvents
flag and its listener list for the emitted name. -/
structure Channel where
  suspend : Bool
  listeners : List (Option Listener)

/-- Emit on a single channel without fan-out: a no-op when suspended,
otherwise the dispatch loop. -/
def Channel.emitOne (c : Channel) : Except Unit (List Nat) :=
  if c.suspend then .ok [] else dispatchList c.listeners

/-- The fan-out of emit to the snapshot of the additional emitters: each
additional emitter runs its own emit (whose dispatch has its own per-listener
try/catch). -/
def emitToEmitters : List Channel → Except Unit (List (List Nat))
  | [] => .ok []
  | e :: rest => do
    let ids ← e.emitOne
    let more ← emitToEmitters rest
    pure (ids :: more)

/-- Events.emit on a channel with additional emitters: returns the invoked
listener identifiers of the channel followed by those of each additional
emitter. -/
def emitModel (c : Channel) (emitters : List Channel) :
    Except Unit (List Nat × List (List Nat)) :=
  if c.suspend then .ok ([], [])
  else do
    let ids ← dispatchList c.listeners
    let more ← emitToEmitters emitters
    pure (ids, more)

/-- The identifiers of all non-null listeners of a slot list. -/
def allIds (ls : List (Option Listener)) : List Nat :=
  ls.filterMap (fun o => o.map Listener.id)

theorem dispatchList_ok (ls : List (Option Listener)) :
    dispatchList ls = .ok (allIds ls) := by
  induction ls with
  | nil => rfl
  | cons o rest ih =>
    cases o with
    | none => simpa [dispatchList, allIds] using ih
    | some l =>
      cases hl : callListener l <;>
        (simp only [dispatchList, hl, ih, allIds]; rfl)

theorem emitToEmitters_ok (es : List Channel) :
    emitToEmitters es = .ok (es.map fun e => if e.suspend then [] else allIds e.listeners) := by
  induction es with
  | nil => rfl
  | cons e rest ih =>
    simp only [emitToEmitters, Channel.emitOne]
    split
    · rename_i hs
      simp only [ih, hs, List.map_cons, if_pos]
      rfl
    · rename_i hs
      simp only [dispatchList_ok, ih, List.map_cons, hs, if_neg, Bool.false_eq_true,
        not_false_eq_true]
      rfl

/-- C7: on a non-suspended channel with at least two listeners of which an
earlier one raises, emit still invokes every listener (so in particular every
one after the raising listener), invokes every attached additional emitter,
and returns normally: the exception does not propagate out of emit. -/
theorem c7_emit_catches_listener_exceptions (c : Channel) (emitters : List Channel)
    (hsusp : c.suspend = false)
    (htwo : 2 ≤ (allIds c.listeners).length)
    (hthrows : ∃ l ∈ c.listeners, ∃ x, l = some x ∧ x.throws = true) :
    emitModel c emitters =
      .ok (allIds c.listeners,
           emitters.map fun e => if e.suspend then [] else allIds e.listeners) := by
  unfold emitModel
  rw [if_neg (by simp [hsusp])]
  rw [dispatchList_ok, emitToEmitters_ok]
  rfl

/-- Witness for c7_emit_catches_listener_exceptions: two listeners, the first
raising, one additional emitter; both listeners and the emitter fire and the
result is a normal return. -/
theorem c7_emit_witness :
    emitModel ⟨false, [some ⟨1, true⟩, some ⟨2, false⟩]⟩ [⟨false, [some ⟨3, false⟩]⟩] =
      .ok ([1, 2], [[3]]) := by
  have h := c7_emit_catches_listener_exceptions
    ⟨false, [some ⟨1, true⟩, some ⟨2, false⟩]⟩ [⟨false, [some ⟨3, false⟩]⟩]
    rfl (by decide) ⟨some ⟨1, true⟩, by simp, ⟨1, true⟩, rfl, rfl⟩
  simpa [allIds] using h

end Obs

namespace Obs

/-!
ObserverList.positionNextClosest (observer.mjs lines 1818-1852): binary
search for the insertion point of a value in the sorted backing list.  The
comparator fn returns 1 when its first argument sorts after the second, -1
when before, and 0 on a match.  Math.floor of the midpoint is Int division
(Int `/` rounds toward minus infinity for the positive divisor 2).  The
local variable cur of the source is written out as (mn + mx) / 2 below.
-/

/-- Outcome of the while loop of positionNextClosest: either the comparator
returned neither 1 nor -1 at cur (the return-cur branch inside the loop), or
the loop exited with min above max, in which case the last values of cur and
a are reported (a is none only if the loop never ran, and the midpoint slot
carries none if the index fell outside the list, which the wrapper bounds
rule out). -/
inductive BsOut (α : Type) where
  | found (cur : Int)
  | exit (cur : Int) (a : Option α)

/-- The while loop of positionNextClosest, carrying min, max and the last
midpoint cur with its element a. -/
def bsLoop (l : List α) (fn : α → α → Int) (b : α) :
    Int → Int → Int → Option α → BsOut α := fun mn mx cur a =>
  if hle : mn ≤ mx then
    if hx : 0 ≤ (mn + mx) / 2 ∧ ((mn + mx) / 2).toNat < l.length then
      if fn (l.get ⟨((mn + mx) / 2).toNat, hx.2⟩) b = 1 then
        bsLoop l fn b mn ((mn + mx) / 2 - 1) ((mn + mx) / 2)
          (some (l.get ⟨((mn + mx) / 2).toNat, hx.2⟩))
      else if fn (l.get ⟨((mn + mx) / 2).toNat, hx.2⟩) b = -1 then
        bsLoop l fn b ((mn + mx) / 2 + 1) mx ((mn + mx) / 2)
          (some (l.get ⟨((mn + mx) / 2).toNat, hx.2⟩))
      else .found ((mn + mx) / 2)
    else .exit ((mn + mx) / 2) none
  else .exit cur a
  termination_by mn mx _ _ => (mx + 1 - mn).toNat
  decreasing_by
  all_goals omega

/-- ObserverList.positionNextClosest: -1 on an empty list; 0 when the first
element matches; otherwise binary search, then return the last midpoint when
its element sorts after b, the append signal -1 when the midpoint was the
last index, and the next index otherwise. -/
def positionNextClosest (l : List α) (fn : α → α → Int) (b : α) : Int :=
  if h0 : l.length = 0 then -1
  else
    if fn (l.get ⟨0, by omega⟩) b = 0 then 0
    else
      match bsLoop l fn b 0 ((l.length : Int) - 1) 0 none with
      | .found cur => cur
      | .exit cur a =>
        if a.elim false (fun x => fn x b == 1) then cur
        else if cur + 1 = (l.length : Int) then -1
        else cur + 1

/-- Loop invariant proof for bsLoop, by induction on a bound of the range
width: when every index below min sorts before b, every index above max
sorts after b, and the comparator never returns 0 against b, the loop exits
at the cut position k separating the elements before b from those after,
with the last midpoint just on one side of k. -/
theorem bsLoop_spec (l : List α) (fn : α → α → Int) (b : α) (k : Nat)
    (hlow : ∀ i : Nat, (hi : i < l.length) → i < k → fn (l.get ⟨i, hi⟩) b = -1)
    (hhigh : ∀ i : Nat, (hi : i < l.length) → k ≤ i → fn (l.get ⟨i, hi⟩) b = 1) :
    ∀ (n : Nat) (mn mx cur : Int) (a : Option α),
      (mx + 1 - mn).toNat ≤ n →
      0 ≤ mn → mx ≤ (l.length : Int) - 1 → mn ≤ mx →
      mn ≤ (k : Int) → (k : Int) ≤ mx + 1 →
      ∃ (c : Int) (x : α),
        bsLoop l fn b mn mx cur a = .exit c (some x) ∧
        0 ≤ c ∧ c ≤ (l.length : Int) - 1 ∧
        l.get? c.toNat = some x ∧
        ((c = (k : Int) ∧ fn x b = 1) ∨ (c = (k : Int) - 1 ∧ fn x b = -1)) := by
  intro n
  induction n with
  | zero =>
    intro mn mx cur a hn hmn hmx hle hkl hkr
    exact absurd hn (by omega)
  | succ n ih =>
    intro mn mx cur a hn hmn hmx hle hkl hkr
    have hb : 0 ≤ (mn + mx) / 2 ∧ ((mn + mx) / 2).toNat < l.length := by
      constructor <;> omega
    rw [bsLoop, dif_pos hle, dif_pos hb]
    set x := l.get ⟨((mn + mx) / 2).toNat, hb.2⟩ with hxdef
    by_cases h1 : fn x b = 1
    · rw [if_pos h1]
      have hcge : (k : Int) ≤ (mn + mx) / 2 := by
        by_contra hc
        push_neg at hc
        have := hlow ((mn + mx) / 2).toNat hb.2 (by omega)
        rw [← hxdef] at this
        omega
      by_cases hstop : mn ≤ (mn + mx) / 2 - 1
      · exact ih mn ((mn + mx) / 2 - 1) ((mn + mx) / 2) (some x)
          (by omega) hmn (by omega) hstop hkl (by omega)
      · rw [bsLoop, dif_neg hstop]
        refine ⟨(mn + mx) / 2, x, rfl, by omega, by omega, ?_, ?_⟩
        · rw [List.get?_eq_get hb.2]
        · exact Or.inl ⟨by omega, h1⟩
    · rw [if_neg h1]
      by_cases h2 : fn x b = -1
      · rw [if_pos h2]
        have hcle : (mn + mx) / 2 < (k : Int) := by
          by_contra hc
          push_neg at hc
          have := hhigh ((mn + mx) / 2).toNat hb.2 (by omega)
          rw [← hxdef] at this
          omega
        by_cases hstop : (mn + mx) / 2 + 1 ≤ mx
        · exact ih ((mn + mx) / 2 + 1) mx ((mn + mx) / 2) (some x)
            (by omega) (by omega) hmx hstop (by omega) hkr
        · rw [bsLoop, dif_neg hstop]
          refine ⟨(mn + mx) / 2, x, rfl, by omega, by omega, ?_, ?_⟩
          · rw [List.get?_eq_get hb.2]
          · exact Or.inr ⟨by omega, h2⟩
      · exfalso
        by_cases hside : ((mn + mx) / 2).toNat < k
        · have := hlow ((mn + mx) / 2).toNat hb.2 hside
          rw [← hxdef] at this
          exact h2 this
        · have := hhigh ((mn + mx) / 2).toNat hb.2 (by omega)
          rw [← hxdef] at this
          exact h1 this

/-- C9: on a sorted non-empty collection whose elements split at position k
(every element before index k sorts before b, every element from index k on
sorts after b, so b is absent), positionNextClosest returns 0 when b
precedes every element (k = 0), the append signal -1 when b follows every
element (k = length), and otherwise the insertion point k. -/
theorem c9_positionNextClosest_insertion_point (l : List α) (fn : α → α → Int)
    (b : α) (k : Nat) (hne : l ≠ []) (hk : k ≤ l.length)
    (hlow : ∀ i : Nat, (hi : i < l.length) → i < k → fn (l.get ⟨i, hi⟩) b = -1)
    (hhigh : ∀ i : Nat, (hi : i < l.length) → k ≤ i → fn (l.get ⟨i, hi⟩) b = 1) :
    positionNextClosest l fn b =
      (if k = l.length then -1 else (k : Int)) ∧
    ((∀ x ∈ l, fn x b = 1) → positionNextClosest l fn b = 0) ∧
    ((∀ x ∈ l, fn x b = -1) → positionNextClosest l fn b = -1) := by
  have hlen : 0 < l.length := List.length_pos.mpr hne
  have hmain : positionNextClosest l fn b =
      (if k = l.length then -1 else (k : Int)) := by
    unfold positionNextClosest
    rw [dif_neg (by omega : ¬l.length = 0)]
    have hx0 : fn (l.get ⟨0, hlen⟩) b ≠ 0 := by
      by_cases hs : 0 < k
      · rw [hlow 0 hlen hs]
        omega
      · rw [hhigh 0 hlen (by omega)]
        omega
    rw [if_neg hx0]
    obtain ⟨c, x, hrun, hc0, hcl, hgx, hcase⟩ :=
      bsLoop_spec l fn b k hlow hhigh ((l.length : Int) - 1 + 1 - 0).toNat
        0 ((l.length : Int) - 1) 0 none
        le_rfl le_rfl le_rfl (by omega) (by omega) (by omega)
    rw [hrun]
    show (if ((some x).elim false fun y => fn y b == 1) = true then c
      else if c + 1 = (l.length : Int) then -1 else c + 1) =
        (if k = l.length then -1 else (k : Int))
    show (if (fn x b == 1) = true then c
      else if c + 1 = (l.length : Int) then -1 else c + 1) =
        (if k = l.length then -1 else (k : Int))
    rcases hcase with ⟨hck, hfx⟩ | ⟨hck, hfx⟩
    · -- the last midpoint sits at the cut and sorts after b
      rw [if_pos (by simp [hfx])]
      rw [if_neg (show ¬k = l.length by omega)]
      exact hck
    · -- the last midpoint sits just before the cut and sorts before b
      rw [if_neg (by simp [hfx])]
      by_cases hend : c + 1 = (l.length : Int)
      · rw [if_pos hend, if_pos (show k = l.length by omega)]
      · rw [if_neg hend, if_neg (show ¬k = l.length by omega)]
        omega
  refine ⟨hmain, ?_, ?_⟩
  · intro hall
    have hk0 : k = 0 := by
      by_contra hknz
      have := hlow 0 hlen (by omega)
      have h1 := hall (l.get ⟨0, hlen⟩) (List.get_mem l 0 hlen)
      omega
    rw [hmain, hk0]
    rw [if_neg (by omega)]
    rfl
  · intro hall
    have hkl : k = l.length := by
      by_contra hkne
      have hklt : k < l.length := by omega
      have := hhigh k hklt le_rfl
      have h1 := hall (l.get ⟨k, hklt⟩) (List.get_mem l k hklt)
      omega
    rw [hmain, hkl, if_pos rfl]

/-- Witness for c9_positionNextClosest_insertion_point: the integer list
[10, 20, 40, 50] with the standard comparator and probe 30 has its cut at
index 2, and positionNextClosest returns 2. -/
theorem c9_positionNextClosest_witness :
    positionNextClosest [(10 : Int), 20, 40, 50]
      (fun a b => if a > b then 1 else if a < b then -1 else 0) 30 = 2 := by
  have h := c9_positionNextClosest_insertion_point
    [(10 : Int), 20, 40, 50]
    (fun a b => if a > b then 1 else if a < b then -1 else 0) 30 2
    (by decide) (by decide)
    (by decide)
    (by decide)
  rw [h.1]
  rfl

end Obs

namespace Obs

/-!
The Observer tree (observer.mjs lines 628-1551).  A stored value is either a
primitive, a raw JavaScript array, an internal node (the root Observer, a
child Observer or the plain bookkeeping record with _path, _keys and _data
that set and _prepare create), or a raw plain object (an object that stayed
unwrapped inside a nested raw array and therefore has no _keys or _data).
The keys list and the data association list of a node are kept separate
because the source lets them disagree: some code paths write _data without
pushing onto _keys and vice versa.
-/

/-- A value stored in an Observer tree. -/
inductive Value where
  | prim (p : Prim)
  | arr (xs : List Value)
  | node (path : String) (keys : List String) (data : List (String × Value))
  | pobj (kvs : List (String × Value))

mutual

/-- Size measure of a Value, used for termination of the tree recursions. -/
def vsize : Value → Nat
  | .prim _ => 1
  | .arr xs => 1 + vsizeL xs
  | .node _ keys data => 1 + keys.length + vsizeKv data
  | .pobj kvs => 1 + vsizeKv kvs

def vsizeL : List Value → Nat
  | [] => 0
  | x :: rest => 1 + vsize x + vsizeL rest

def vsizeKv : List (String × Value) → Nat
  | [] => 0
  | (_, v) :: rest => 1 + vsize v + vsizeKv rest

end

/-- Lookup in the data association list of a node (property read). -/
def lookupV : List (String × Value) → String → Option Value
  | [], _ => none
  | (k, v) :: rest, key => if k = key then some v else lookupV rest key

/-- Property write: replace in place when the key exists (JavaScript keeps
the insertion position), append otherwise. -/
def putV : List (String × Value) → String → Value → List (String × Value)
  | [], key, v => [(key, v)]
  | (k, w) :: rest, key, v =>
    if k = key then (k, v) :: rest else (k, w) :: putV rest key v

/-- Property delete: remove the entry for the key. -/
def delV : List (String × Value) → String → List (String × Value)
  | [], _ => []
  | (k, w) :: rest, key =>
    if k = key then rest else (k, w) :: delV rest key

/-- The idiom list.splice(list.indexOf(key), 1): remove the first occurrence
of the key; when the key is absent indexOf yields -1 and splice(-1, 1)
removes the last element instead. -/
def spliceIndexOf (keys : List String) (key : String) : List String :=
  if key ∈ keys then keys.eraseP (fun k => k = key)
  else keys.dropLast

theorem lookupV_vsize {data : List (String × Value)} {key : String} {v : Value}
    (h : lookupV data key = some v) : vsize v < vsizeKv data := by
  induction data with
  | nil => simp [lookupV] at h
  | cons kv rest ih =>
    obtain ⟨k, w⟩ := kv
    rw [lookupV] at h
    split at h
    · cases h
      rw [vsizeKv]
      omega
    · have := ih h
      rw [vsizeKv]
      omega

/-- Value of a list of decimal digit characters. -/
def decValue (cs : List Char) : Nat :=
  cs.foldl (fun n c => n * 10 + (c.toNat - 48)) 0

/-- Whether a character list is the canonical decimal form of a natural
number: a lone zero, or digits without a leading zero. -/
def isCanonicalIndex : List Char → Bool
  | [] => false
  | ['0'] => true
  | c :: rest => c.isDigit && c != '0' && rest.all Char.isDigit

/-- Parse a canonical array index string: the decimal digits of a natural
number without leading zeros (the form JavaScript uses for array index
property names). -/
def jsArrIdxStr (s : String) : Option Nat :=
  if isCanonicalIndex s.data then some (decValue s.data) else none

/-- Read an array slot by a raw string subscript, as arr[key] does. -/
def jsArrGetStr (xs : List Value) (s : String) : Option Value :=
  (jsArrIdxStr s).bind fun n => xs.get? n

/-- parseInt(s, 10): optional sign followed by leading decimal digits; none
models NaN. -/
def jsParseInt (s : String) : Option Int :=
  let core (t : List Char) (sign : Int) : Option Int :=
    let ds := t.takeWhile Char.isDigit
    if ds.isEmpty then none
    else some (sign * (decValue ds : Int))
  match s.data with
  | '-' :: rest => core rest (-1)
  | '+' :: rest => core rest 1
  | cs => core cs 1

/-- Array read with an integer subscript: negative or out-of-range reads
give undefined (none). -/
def jsArrGetInt (xs : List Value) (i : Int) : Option Value :=
  if 0 ≤ i then xs.get? i.toNat else none

/-- arr.splice(start, 1): remove one element, with the JavaScript treatment
of a negative start (counted from the end, clamped at 0) and a start beyond
the length (no-op). -/
def jsSpliceRemove (xs : List Value) (start : Int) : List Value :=
  let st : Nat := if start < 0 then (start + xs.length).toNat else
    min start.toNat xs.length
  xs.take st ++ xs.drop (st + 1)

/-- arr.splice(start, 0, v): insert one element, with the JavaScript
treatment of a negative start and a start beyond the length. -/
def jsSpliceInsert (xs : List Value) (start : Int) (v : Value) : List Value :=
  let st : Nat := if start < 0 then (start + xs.length).toNat else
    min start.toNat xs.length
  xs.take st ++ [v] ++ xs.drop st

/-- arr[i] = v for a nonnegative in-range or appending index; an index past
the length fills the gap with undefined slots.  A negative or NaN subscript
writes a plain property on the array object, which this model of arrays
cannot hold; no claim exercises that case. -/
def jsArrSet (xs : List Value) (i : Option Int) (v : Value) : List Value :=
  match i with
  | none => xs
  | some n =>
    if n < 0 then xs
    else if n.toNat < xs.length then xs.set n.toNat v
    else xs ++ List.replicate (n.toNat - xs.length) (.prim .undef) ++ [v]

/-- The path of a member of a node: parent path, a dot, then the key (no dot
when the parent path is empty). -/
def joinPath (p k : String) : String :=
  if p = "" then k else p ++ "." ++ k

/-- Helper for splitPath: accumulate the current segment (reversed) while
scanning the characters. -/
def splitPathAux : List Char → List Char → List String
  | [], acc => [String.mk acc.reverse]
  | c :: rest, acc =>
    if c = '.' then String.mk acc.reverse :: splitPathAux rest []
    else splitPathAux rest (c :: acc)

/-- Observer._splitPath: split the path on dots (the split-on-dot of the
source, written over the character list so that it evaluates). -/
def splitPath (path : String) : List String :=
  splitPathAux path.data []

/-- Convert a plain JavaScript value into its stored form without any
Observer wrapping: plain objects stay raw (pobj).  This is the shape a value
keeps when it is stored by direct assignment (an array element position) or
when it sits inside a nested raw array. -/
def rawJToValue : JVal → Value
  | .prim p => .prim p
  | .arr xs => .arr (xs.attach.map fun e => rawJToValue e.1)
  | .obj kvs => .pobj (kvs.attach.map fun e => (e.1.1, rawJToValue e.1.2))
  termination_by v => sizeOf v
  decreasing_by
  · have := List.sizeOf_lt_of_mem e.2
    simp only [JVal.arr.sizeOf_spec]
    omega
  · have := List.sizeOf_lt_of_mem e.2
    have h2 : sizeOf e.1.2 < sizeOf e.1 := by
      obtain ⟨a, b⟩ := e.1
      simp only [Prod.mk.sizeOf_spec]
      omega
    simp only [JVal.obj.sizeOf_spec]
    omega

/-- Strict equality between a stored value and a plain argument value:
primitive against primitive is structural; anything else compares object
references, which can never match between a stored structure and a freshly
supplied argument, hence false. -/
def jsStrictVJ : Value → JVal → Bool
  | .prim p, .prim q => p == q
  | _, _ => false

/-- The length property as read by arrayEquals on the second argument: the
element count for an array, the character count for a string, undefined
(none) otherwise. -/
def jsLenOf : Value → Option Nat
  | .arr xs => some xs.length
  | .prim (.str s) => some s.length
  | _ => none

/-- JavaScript truthiness of a stored value. -/
def Value.truthyV : Value → Bool
  | .prim p => p.truthy
  | _ => true

mutual

/-- arrayEquals(a, b) (observer.mjs lines 583-602) with the first argument a
plain JavaScript array and the second a stored value.  False when either is
falsy or the lengths differ; corresponding elements compare with strict
equality except that two arrays recurse. -/
def aeJV : List JVal → Value → Bool
  | xs, b =>
    if !b.truthyV then false
    else match b with
      | .arr ys => xs.length == ys.length && aeJVList xs ys
      | .prim (.str s) =>
        xs.length == s.length && aeJVChars xs s.data
      | _ => false

def aeJVList : List JVal → List Value → Bool
  | [], [] => true
  | x :: xs, y :: ys =>
    (match x, y with
     | .arr xa, .arr ya => aeJVList xa ya
     | _, _ => jsStrictVJ y x) && aeJVList xs ys
  | _, _ => false

def aeJVChars : List JVal → List Char → Bool
  | [], [] => true
  | x :: xs, c :: cs =>
    (x == .prim (.str (String.mk [c]))) && aeJVChars xs cs
  | _, _ => false

end

/-- Observer._equals(a, b) with a the stored value and b the argument:
strict equality, or the deep array comparison when both are arrays. -/
def equalsVJ (a : Value) (b : JVal) : Bool :=
  jsStrictVJ a b ||
    (match a, b with
     | .arr xs, .arr ys => aeJVList ys xs
     | _, _ => false)

end Obs

namespace Obs

mutual

/-- Structural conversion of a raw stored value (one that contains no
Observer wrapping) to the plain value it deeply equals; used for the shallow
for-in copy that json performs on a raw plain object, whose members are
always raw.  A node under a pobj cannot arise; its clause mirrors the
for-in copy shape for totality. -/
def rawVToJ : Value → JVal
  | .prim p => .prim p
  | .arr xs => .arr (rawVToJL xs)
  | .pobj kvs => .obj (rawVToJKv kvs)
  | .node _ _ data => .obj (rawVToJKv data)
  termination_by v => 16 * vsize v
  decreasing_by
  all_goals (simp [vsize, vsizeL, vsizeKv]; try omega)

def rawVToJL : List Value → List JVal
  | [] => []
  | x :: rest => rawVToJ x :: rawVToJL rest
  termination_by xs => 16 * vsizeL xs + 1
  decreasing_by
  all_goals (simp [vsize, vsizeL, vsizeKv]; try omega)

def rawVToJKv : List (String × Value) → List (String × JVal)
  | [] => []
  | (k, v) :: rest => (k, rawVToJ v) :: rawVToJKv rest
  termination_by kvs => 16 * vsizeKv kvs + 1
  decreasing_by
  all_goals (simp [vsize, vsizeL, vsizeKv]; try omega)

end

mutual

/-- Observer.json (observer.mjs lines 1451-1502).  A node (an object with a
_keys list) serializes by walking its keys in order and reading _data: a key
whose data entry is missing yields an undefined member.  A raw array maps
json over its elements (jsonifying an object-typed element and keeping a
primitive element are the same operation at this level, since json is the
identity on primitives).  A raw plain object is copied shallowly, described
here by the deep conversion its reference-preserving copy deeply equals.  A
primitive (null included) is returned as is. -/
def jsonV : Value → JVal
  | .prim p => .prim p
  | .arr xs => .arr (jsonL xs)
  | .node _ keys data => .obj (jsonKeys keys data)
  | .pobj kvs => .obj (rawVToJKv kvs)
  termination_by v => 16 * vsize v
  decreasing_by
  all_goals (simp [vsize, vsizeL, vsizeKv]; try omega)

def jsonL : List Value → List JVal
  | [] => []
  | x :: rest => jsonV x :: jsonL rest
  termination_by xs => 16 * vsizeL xs + 1
  decreasing_by
  all_goals (simp [vsize, vsizeL, vsizeKv]; try omega)

def jsonKeys : List String → List (String × Value) → List (String × JVal)
  | [], _ => []
  | k :: ks, data =>
    (k, match h : lookupV data k with
        | none => .prim .undef
        | some v => jsonV v) :: jsonKeys ks data
  termination_by ks data => 16 * vsizeKv data + ks.length + 1
  decreasing_by
  all_goals try simp [vsize, vsizeL, vsizeKv]
  all_goals try omega
  all_goals (have hs := lookupV_vsize h; omega)

end

end Obs

namespace Obs

mutual

/-- The recursive descendant removal of Observer.unset (lines 1162-1168):
before removing a key whose value is a node, every descendant key is unset
first, walking the keys list in reverse order; each removal emits its own
unset event pair with silent true (hence silenced) and remote false, after
the events of its own descendants. -/
def unsetDesc (v : Value) (pfx : String) : List Event :=
  match v with
  | .node _ keys data => unsetDescKeys keys.reverse data pfx
  | _ => []
  termination_by 16 * vsize v
  decreasing_by
  all_goals try simp [vsize, vsizeL, vsizeKv]
  all_goals try omega

def unsetDescKeys : List String → List (String × Value) → String → List Event
  | [], _, _ => []
  | k :: rest, data, pfx =>
    (match h : lookupV data k with
     | none => []
     | some cv =>
       unsetDesc cv (pfx ++ "." ++ k) ++
         emitPair (pfx ++ "." ++ k) .unset (jsonV cv) .undefined .undefined false true) ++
      unsetDescKeys rest data pfx
  termination_by ks data _ => 16 * vsizeKv data + ks.length + 1
  decreasing_by
  all_goals try simp [vsize, vsizeL, vsizeKv]
  all_goals try omega
  all_goals (have hs := lookupV_vsize h; omega)

end

/-- The final step of Observer.unset (lines 1154-1180) at the container
node: a missing key (or a container without _data) returns false; property
access on null or undefined throws; otherwise capture the serialized old
value, unset every descendant, splice the key out of _keys, delete the data
entry and emit the unset event pair. -/
def unsetFinal (node : Value) (key fullPath : String) (silent remote : Bool) :
    Except Unit (Value × Bool × List Event) :=
  match node with
  | .prim .null => .error ()
  | .prim .undef => .error ()
  | .node p keys data =>
    match lookupV data key with
    | none => .ok (node, false, [])
    | some v =>
      .ok (.node p (spliceIndexOf keys key) (delV data key),
           true,
           unsetDesc v fullPath ++
             emitPair fullPath .unset (jsonV v) .undefined .undefined remote silent)
  | _ => .ok (node, false, [])

/-- The traversal loop of Observer.unset (lines 1142-1153), rebuilt
functionally: a string subscript into an array, a _data read on a node, a
TypeError (error) when the step lands on undefined or null or when _data is
read off a value that lacks it on the next round. -/
def unsetGo : Value → List String → String → Bool → Bool →
    Except Unit (Value × Bool × List Event)
  | node, [key], fullPath, silent, remote =>
    unsetFinal node key fullPath silent remote
  | node, key :: rest, fullPath, silent, remote =>
    match node with
    | .arr xs =>
      (match jsArrGetStr xs key with
       | some child => do
         let (child', r, evs) ← unsetGo child rest fullPath silent remote
         .ok (.arr (jsArrSet xs (some ((jsArrIdxStr key).getD 0 : Nat)) child'),
              r, evs)
       | none => .error ())
    | .node p keys data =>
      (match lookupV data key with
       | some child => do
         let (child', r, evs) ← unsetGo child rest fullPath silent remote
         .ok (.node p keys (putV data key child'), r, evs)
       | none => .error ())
    | _ => .error ()
  | node, [], _, _, _ => .ok (node, false, [])

/-- Observer.unset: split the path and walk. -/
def Observer.unset (root : Value) (path : String) (silent remote : Bool) :
    Except Unit (Value × Bool × List Event) :=
  unsetGo root (splitPath path) path silent remote

/-- The loose comparison node == undefined used by get and has. -/
def jsNullish : Value → Bool
  | .prim .null => true
  | .prim .undef => true
  | _ => false

/-- One traversal step of Observer.get: a node reads _data, everything else
is a raw property read (array index, plain object member, string index or
length, undefined on other primitives). -/
def stepGet (v : Value) (k : String) : Option Value :=
  match v with
  | .node _ _ data => lookupV data k
  | .arr xs =>
    if k = "length" then some (.prim (.num xs.length)) else jsArrGetStr xs k
  | .pobj kvs => lookupV kvs k
  | .prim (.str s) =>
    if k = "length" then some (.prim (.num s.length))
    else (jsArrIdxStr k).bind fun n =>
      (s.data.get? n).map fun c => .prim (.str (String.mk [c]))
  | .prim _ => none

/-- Outcome of the get traversal: early is the return-undefined exit taken
when a segment remains but the current node compares loosely equal to
undefined; done carries the node after the last step (none for a missing
final property). -/
inductive GetOut where
  | early
  | done (v : Option Value)

/-- The traversal loop of Observer.get (lines 1096-1109). -/
def walkGet : Option Value → List String → GetOut
  | ov, [] => .done ov
  | none, _ :: _ => .early
  | some v, k :: rest =>
    if jsNullish v then .early
    else walkGet (stepGet v k) rest

/-- Observer.get with raw false (lines 1095-1117): undefined from the early
exit; null when the traversal completed on undefined or null; the serialized
value otherwise. -/
def Observer.get (root : Value) (path : String) : JVal :=
  match walkGet (some root) (splitPath path) with
  | .early => .prim .undef
  | .done none => .prim .null
  | .done (some v) => if jsNullish v then .prim .null else jsonV v

/-- The plain traversal fold (no early exit), used to state where get's
traversal stood after a number of steps. -/
def walkRaw (ov : Option Value) (ks : List String) : Option Value :=
  ks.foldl (fun acc k => acc.bind (fun v => stepGet v k)) ov

/-- A traversal position that reads as undefined in get: either the value is
missing or it is null or undefined. -/
def nullishOpt : Option Value → Bool
  | none => true
  | some v => jsNullish v

theorem walkRaw_nil (ov : Option Value) : walkRaw ov [] = ov := rfl

theorem walkRaw_cons (ov : Option Value) (k : String) (ks : List String) :
    walkRaw ov (k :: ks) = walkRaw (ov.bind (fun v => stepGet v k)) ks := rfl

/-- Characterization of the get traversal: the early undefined exit happens
exactly when some proper prefix of the path leads to a missing, null or
undefined position; otherwise the loop completes with the full fold. -/
theorem walkGet_char (keys : List String) :
    ∀ ov : Option Value,
      (walkGet ov keys = .early ↔
        ∃ i, i < keys.length ∧ nullishOpt (walkRaw ov (keys.take i)) = true) ∧
      (∀ ov', walkGet ov keys = .done ov' → ov' = walkRaw ov keys) := by
  induction keys with
  | nil =>
    intro ov
    constructor
    · constructor
      · intro h
        rw [walkGet] at h
        cases h
      · rintro ⟨i, hi, _⟩
        simp at hi
    · intro ov' h
      rw [walkGet] at h
      rw [walkRaw_nil]
      cases h
      rfl
  | cons k rest ih =>
    intro ov
    cases ov with
    | none =>
      constructor
      · constructor
        · intro _
          exact ⟨0, by simp, by simp [walkRaw_nil, nullishOpt]⟩
        · intro _
          rw [walkGet]
      · intro ov' h
        rw [walkGet] at h
        cases h
    | some v =>
      by_cases hnv : jsNullish v = true
      · constructor
        · constructor
          · intro _
            exact ⟨0, by simp, by simp [walkRaw_nil, nullishOpt, hnv]⟩
          · intro _
            rw [walkGet, if_pos hnv]
        · intro ov' h
          rw [walkGet, if_pos hnv] at h
          cases h
      · have hstep : walkGet (some v) (k :: rest) = walkGet (stepGet v k) rest := by
          rw [walkGet, if_neg hnv]
        constructor
        · rw [hstep, (ih (stepGet v k)).1]
          constructor
          · rintro ⟨i, hi, hnull⟩
            refine ⟨i + 1, by simp; omega, ?_⟩
            rw [List.take_succ_cons, walkRaw_cons]
            exact hnull
          · rintro ⟨i, hi, hnull⟩
            cases i with
            | zero =>
              rw [List.take_zero, walkRaw_nil] at hnull
              rw [nullishOpt] at hnull
              exact absurd hnull hnv
            | succ j =>
              refine ⟨j, by simp at hi; omega, ?_⟩
              rw [List.take_succ_cons, walkRaw_cons] at hnull
              exact hnull
        · intro ov' h
          rw [hstep] at h
          rw [walkRaw_cons]
          exact (ih (stepGet v k)).2 ov' h

end Obs

namespace Obs

/-- C10 counterexample: on the tree with a null member a, the path a.b has
its single intermediate segment a present (resolving to the existing value
null), yet get returns undefined rather than null: the traversal treats a
null intermediate like a missing one. -/
theorem c10_counterexample :
    lookupV [("a", Value.prim .null)] "a" = some (Value.prim .null) ∧
    Observer.get (.node "" ["a"] [("a", .prim .null)]) "a.b" = .prim .undef := by
  constructor
  · rfl
  · rfl

/-- C10 (amended): when no proper prefix of the path reaches a missing, null
or undefined position, and the full traversal ends on a missing slot or on
undefined or null, get returns null rather than undefined; and get returns
undefined exactly when some proper prefix of the path reaches a missing,
null or undefined position (an absent intermediate segment, or one holding
null or undefined). -/
theorem c10_get_null_vs_undefined (root : Value) (path : String) :
    ((∀ i, i < (splitPath path).length →
        nullishOpt (walkRaw (some root) ((splitPath path).take i)) = false) →
      nullishOpt (walkRaw (some root) (splitPath path)) = true →
      Observer.get root path = .prim .null) ∧
    (Observer.get root path = .prim .undef ↔
      ∃ i, i < (splitPath path).length ∧
        nullishOpt (walkRaw (some root) ((splitPath path).take i)) = true) := by
  obtain ⟨hearly, hdone⟩ := walkGet_char (splitPath path) (some root)
  constructor
  · intro hno hfin
    rw [Observer.get]
    rcases hw : walkGet (some root) (splitPath path) with _ | ov
    · exfalso
      obtain ⟨i, hi, hnull⟩ := hearly.mp hw
      have := hno i hi
      rw [this] at hnull
      cases hnull
    · have := hdone ov hw
      subst this
      rcases hov : walkRaw (some root) (splitPath path) with _ | v
    -- missing final slot
      · rfl
      · rw [hov] at hfin
        rw [nullishOpt] at hfin
        show (if jsNullish v = true then JVal.prim Prim.null else jsonV v) =
          JVal.prim Prim.null
        rw [if_pos hfin]
  · constructor
    · intro hg
      rw [Observer.get] at hg
      rcases hw : walkGet (some root) (splitPath path) with _ | ov
      · exact hearly.mp hw
      · exfalso
        rw [hw] at hg
        have := hdone ov hw
        subst this
        rcases hov : walkRaw (some root) (splitPath path) with _ | v
        · rw [hov] at hg
          cases hg
        · rw [hov] at hg
          have hg2 : (if jsNullish v = true then JVal.prim Prim.null else jsonV v) =
              JVal.prim Prim.undef := hg
          by_cases hnv : jsNullish v = true
          · rw [if_pos hnv] at hg2
            cases hg2
          · rw [if_neg hnv] at hg2
            -- jsonV of a non-nullish value is never the undefined primitive
            cases v with
            | prim p =>
              rw [jsonV] at hg2
              cases p with
              | null => exact hnv rfl
              | undef => exact hnv rfl
              | bool b => injection hg2 with h3; cases h3
              | num n => injection hg2 with h3; cases h3
              | str s => injection hg2 with h3; cases h3
            | arr xs =>
              rw [jsonV] at hg2
              cases hg2
            | node q ks data =>
              rw [jsonV] at hg2
              cases hg2
            | pobj kvs =>
              rw [jsonV] at hg2
              cases hg2
    · rintro ⟨i, hi, hnull⟩
      rw [Observer.get]
      rw [hearly.mpr ⟨i, hi, hnull⟩]

/-- Witness for c10_get_null_vs_undefined on the tree with one number
member: the path a.b resolves through the scalar a (not nullish) and ends
missing, so get returns null. -/
theorem c10_get_witness :
    Observer.get (.node "" ["a"] [("a", .prim (.num 5))]) "a.b" = .prim .null := by
  have h := (c10_get_null_vs_undefined
    (.node "" ["a"] [("a", .prim (.num 5))]) "a.b").1
  exact h (by decide) (by decide)

end Obs

namespace Obs

mutual

/-- Size measure of a plain value, for termination of the set cluster. -/
def jsize : JVal → Nat
  | .prim _ => 1
  | .arr xs => 1 + jsizeL xs
  | .obj kvs => 1 + jsizeKv kvs

def jsizeL : List JVal → Nat
  | [] => 0
  | x :: rest => 1 + jsize x + jsizeL rest

def jsizeKv : List (String × JVal) → Nat
  | [] => 0
  | (_, v) :: rest => 1 + jsize v + jsizeKv rest

end

theorem lookupJ_jsize {kvs : List (String × JVal)} {key : String} {v : JVal}
    (h : lookupKv kvs key = some v) : jsize v < jsizeKv kvs := by
  induction kvs with
  | nil => simp [lookupKv] at h
  | cons kv rest ih =>
    obtain ⟨k, w⟩ := kv
    rw [lookupKv] at h
    split at h
    · cases h
      rw [jsizeKv]
      omega
    · have := ih h
      rw [jsizeKv]
      omega

/-- The index/value pairs a for-in loop sees on an array, starting at i. -/
def idxPairsJ (i : Nat) : List JVal → List (String × JVal)
  | [] => []
  | x :: rest => (Nat.repr i, x) :: idxPairsJ (i + 1) rest

/-- The own enumerable key/value pairs of a plain value, as a for-in loop
and Object.keys see them: the members of an object, the indexed elements of
an array, nothing on null. -/
def kvsOfJ : JVal → List (String × JVal)
  | .obj kvs => kvs
  | .arr xs => idxPairsJ 0 xs
  | .prim _ => []

theorem jsizeKv_idxPairsJ (xs : List JVal) : ∀ i, jsizeKv (idxPairsJ i xs) = jsizeL xs := by
  induction xs with
  | nil => intro i; rfl
  | cons x rest ih =>
    intro i
    rw [idxPairsJ, jsizeKv, jsizeL, ih]

theorem kvsOfJ_jsize (d : JVal) : jsizeKv (kvsOfJ d) < jsize d := by
  cases d with
  | prim p => simp [kvsOfJ, jsizeKv, jsize]
  | arr xs => rw [kvsOfJ, jsizeKv_idxPairsJ, jsize]; omega
  | obj kvs => rw [kvsOfJ, jsize]; omega

/-- data.hasOwnProperty(key) on a plain value. -/
def hasKeyJ (d : JVal) (key : String) : Bool :=
  (lookupKv (kvsOfJ d) key).isSome

/-- Strict equality between a possibly-missing stored slot and an argument
value: a missing slot reads as undefined, which strictly equals only the
undefined argument. -/
def jsStrictOptVJ : Option Value → JVal → Bool
  | none, .prim .undef => true
  | none, _ => false
  | some w, v => jsStrictVJ w v

/-- Observer._equals with a possibly-missing stored slot. -/
def equalsOptVJ : Option Value → JVal → Bool
  | none, .prim .undef => true
  | none, _ => false
  | some w, v => equalsVJ w v

/-- The idiom valueOld && valueOld[i] || null used for the old-value
argument of the granular array events: null when the old aggregate is falsy,
otherwise its i-th slot, which itself falls back to null when falsy. -/
def jsIdxOrNull (j : JVal) (i : Nat) : JVal :=
  if !j.truthy then .prim .null
  else
    let slot : Option JVal :=
      match j with
      | .arr zs => zs.get? i
      | .obj kvs => lookupKv kvs (Nat.repr i)
      | .prim (.str s) => (s.data.get? i).map fun c => .prim (.str (String.mk [c]))
      | .prim _ => none
    match slot with
    | some z => if z.truthy then z else .prim .null
    | none => .prim .null

/-- Prefix child-relative event paths with the parent path and an index, the
way wildcard propagation rewrites them, optionally forcing the silenced flag
for events emitted inside a silence window. -/
def prefixEvents (pfx : String) (forceSilenced : Bool) (evs : List Event) :
    List Event :=
  evs.map fun e =>
    { e with path := pfx ++ "." ++ e.path,
             silenced := e.silenced || forceSilenced }

/-- The granular events of the in-place array overwrite when the stored
value is a string of the same length: assigning into a string is a silent
no-op, but a differing slot still emits, with the unchanged character read
back as the new value. -/
def strInplaceEvents (fullPath : String) (remote : Bool) :
    Nat → List Char → List JVal → List Event
  | _, [], _ => []
  | _, _, [] => []
  | i, c :: cs, y :: ys =>
    (if jsStrictVJ (.prim (.str (String.mk [c]))) y then []
     else emitPair (fullPath ++ "." ++ Nat.repr i) .set
       (.prim (.str (String.mk [c]))) (.prim .null) .undefined remote true) ++
      strInplaceEvents fullPath remote (i + 1) cs ys

/-- indexOf with strict equality on a stored array: only a primitive
argument can match, since converted objects and arrays are fresh
references. -/
def jsIndexOfPrim (xs : List Value) (v : Value) : Option Nat :=
  match v with
  | .prim p =>
    let rec go : List Value → Nat → Option Nat
      | [], _ => none
      | w :: rest, i =>
        match w with
        | .prim q => if q = p then some i else go rest (i + 1)
        | _ => go rest (i + 1)
    go xs 0
  | _ => none

end Obs

namespace Obs

/-- The data entry names of a node, in property insertion order (what a
for-in loop over _data visits). -/
def dataKeysOf : Value → List String
  | .node _ _ data => data.map Prod.fst
  | _ => []

/-- The granular silenced events emitted after an array replacement rebuilt
the stored array: one set pair per element, with the old-value slot read
from the serialized old aggregate through the valueOld-and-index-or-null
idiom. -/
def granularSetEvents (fullPath : String) (remote : Bool) (valueOldJ : JVal) :
    Nat → List Value → List Event
  | _, [] => []
  | i, w :: ws =>
    emitPair (fullPath ++ "." ++ Nat.repr i) .set (jsonV w)
        (jsIdxOrNull valueOldJ i) .undefined remote true ++
      granularSetEvents fullPath remote valueOldJ (i + 1) ws

/-- The typeof v === "object" test on a stored value. -/
def Value.typeofObjectV : Value → Bool
  | .prim .null => true
  | .prim _ => false
  | _ => true

/-- The remove-missing-keys pass of Observer.patch (lines 1439-1445): every
own key of the tree absent from the data is unset (a null data would fault
on its hasOwnProperty call). -/
def patchRemoveLoop : List String → JVal → Value → Except Unit (Value × List Event)
  | [], _, t => .ok (t, [])
  | key :: rest, d, t =>
    match d with
    | .prim .null => .error ()
    | _ =>
      if hasKeyJ d key then patchRemoveLoop rest d t
      else do
        let (t', _, evs) ← unsetFinal t key key false false
        let (t'', evs2) ← patchRemoveLoop rest d t'
        .ok (t'', evs ++ evs2)

mutual

/-- Observer.set (observer.mjs lines 822-1066): split the path and walk. -/
def setTop (cfg : List String) (root : Value) (path : String) (v : JVal)
    (silent remote force : Bool) : Except Unit (Value × Bool × List Event) :=
  setGo cfg root (splitPath path) path v silent remote force
  termination_by (16 * jsize v + 10, 0)
  decreasing_by
  all_goals rw [Prod.lex_iff]
  all_goals try simp only [jsize, jsizeL, jsizeKv, List.length_cons, true_and, and_true]
  all_goals try omega

/-- The traversal loop of Observer.set (lines 832-857): on a node, an
intermediate whose current value is not object-typed is replaced by a fresh
bookkeeping record carrying the full set path as its _path, after an unset
of a truthy previous scalar; on an array, a string subscript read; property
access on a primitive or on a raw plain object faults. -/
def setGo (cfg : List String) (node : Value) (keys : List String)
    (fullPath : String) (v : JVal) (silent remote force : Bool) :
    Except Unit (Value × Bool × List Event) :=
  match keys with
  | [key] => setFinal cfg node key fullPath v silent remote force
  | key :: rest =>
    match node with
    | .arr xs =>
      (match jsArrIdxStr key with
       | some n =>
         (match xs.get? n with
          | some child => do
            let (child', r, evs) ← setGo cfg child rest fullPath v silent remote force
            .ok (.arr (xs.set n child'), r, evs)
          | none => .error ())
       | none => .error ())
    | .node np nkeys ndata =>
      (match lookupV ndata key with
       | some w =>
         if w.typeofObjectV then do
           let (w', r, evs) ← setGo cfg w rest fullPath v silent remote force
           .ok (.node np nkeys (putV ndata key w'), r, evs)
         else if w.truthyV then do
           -- obj.unset of the truthy scalar intermediate, then a fresh node;
           -- the key moves to the end of _keys and of the data order
           let evs0 := unsetDesc w (joinPath np key) ++
             emitPair (joinPath np key) .unset (jsonV w) .undefined .undefined false false
           let (child', r, evs) ←
             setGo cfg (.node fullPath [] []) rest fullPath v silent remote force
           .ok (.node np (spliceIndexOf nkeys key ++ [key])
                  (putV (delV ndata key) key child'), r, evs0 ++ evs)
         else do
           -- a falsy scalar is overwritten in place, but the key is pushed
           -- onto _keys again
           let (child', r, evs) ←
             setGo cfg (.node fullPath [] []) rest fullPath v silent remote force
           .ok (.node np (nkeys ++ [key]) (putV ndata key child'), r, evs)
       | none => do
         let (child', r, evs) ←
           setGo cfg (.node fullPath [] []) rest fullPath v silent remote force
         .ok (.node np (nkeys ++ [key]) (putV ndata key child'), r, evs))
    | _ => .error ()
  | [] => .ok (node, false, [])
  termination_by (16 * jsize v + 9, keys.length)
  decreasing_by
  all_goals rw [Prod.lex_iff]
  all_goals try simp only [jsize, jsizeL, jsizeKv, List.length_cons, true_and, and_true]
  all_goals try omega

/-- The final-key step of Observer.set (lines 858-1065), with one branch per
shape of the container and of the new value. -/
def setFinal (cfg : List String) (node : Value) (key fullPath : String)
    (v : JVal) (silent remote force : Bool) :
    Except Unit (Value × Bool × List Event) :=
  match node with
  | .arr xs =>
    -- the container itself is an array (lines 858-886)
    let ind := jsParseInt key
    let stored : Option Value :=
      match ind with
      | some i => jsArrGetInt xs i
      | none => none
    if jsStrictOptVJ stored v && !force then .ok (node, false, [])
    else
      let valueOldJ : JVal :=
        match stored with
        | some w => jsonV w
        | none => .prim .undef
      .ok (.arr (jsArrSet xs ind (rawJToValue v)), true,
           emitPair fullPath .set v valueOldJ .undefined remote silent)
  | .node np nkeys ndata =>
    (match lookupV ndata key with
     | none =>
       -- a new key (lines 887-902)
       if v.typeofObject then do
         let (node', evs) ← prepare (.node np nkeys ndata) key v false remote
         .ok (node', true, evs)
       else
         .ok (.node np (nkeys ++ [key]) (putV ndata key (rawJToValue v)), true,
              emitPair fullPath .set v (.prim .null) .undefined remote silent)
     | some w =>
       match v with
       | .arr ys =>
         -- array replacement (lines 903-950)
         if aeJV ys w && !force then .ok (node, false, [])
         else
           let valueOldJ := jsonV w
           match w with
           | .arr ws =>
             if ws.length = ys.length then do
               -- equal lengths: in-place element patch (the empty-length
               -- case swaps in the new empty array, with the same content)
               let (ws', evsG) ← inplaceLoop cfg fullPath valueOldJ remote 0 ws ys
               .ok (.node np nkeys (putV ndata key (.arr ws')), true,
                    evsG ++ emitPair fullPath .set v valueOldJ .undefined remote silent)
             else
               setArrRebuild cfg np nkeys ndata key fullPath (.arr ys) ys
                 valueOldJ silent remote
           | .prim (.str s) =>
             if s ≠ "" ∧ s.length = ys.length then
               -- a stored string of equal length enters the in-place loop;
               -- index assignment into a string is a silent no-op
               .ok (node, true,
                    strInplaceEvents fullPath remote 0 s.data ys ++
                      emitPair fullPath .set v valueOldJ .undefined remote silent)
             else
               setArrRebuild cfg np nkeys ndata key fullPath (.arr ys) ys
                 valueOldJ silent remote
           | _ =>
             setArrRebuild cfg np nkeys ndata key fullPath (.arr ys) ys
               valueOldJ silent remote
       | .obj vkvs =>
         -- object merge (lines 951-1041)
         let valueOldJ := jsonV w
         let prep : Value × List String × List (String × Value) × List Event × Bool :=
           match w with
           | .node cp ck cd => (.node cp ck cd, nkeys, ndata, [], false)
           | _ =>
             if w.truthyV then
               -- obj.unset of the non-node truthy value; the key is not
               -- pushed back onto _keys (it becomes invisible to json)
               (.node fullPath [] [], spliceIndexOf nkeys key, delV ndata key,
                unsetDesc w (joinPath np key) ++
                  emitPair (joinPath np key) .unset (jsonV w) .undefined .undefined false false,
                false)
             else
               (.node fullPath [] [], nkeys, ndata, [], true)
         do
           let (child1, ch1, evs1) ←
             mergeLoop1 cfg fullPath (.obj vkvs) prep.1 (dataKeysOf prep.1)
           let (child2, ch2, evs2) ← mergeLoop2 cfg fullPath remote child1 vkvs
           let changed := prep.2.2.2.2 || ch1 || ch2
           if changed then
             let childPath : String :=
               match child2 with
               | .node cp2 _ _ => cp2
               | _ => fullPath
             .ok (.node np prep.2.1 (putV prep.2.2.1 key child2), true,
                  prep.2.2.2.1 ++ evs1 ++ evs2 ++
                    emitPair childPath .set (jsonV child2) valueOldJ .undefined
                      remote silent)
           else
             .ok (.node np prep.2.1 (putV prep.2.2.1 key child2), false,
                  prep.2.2.2.1 ++ evs1 ++ evs2)
       | .prim p =>
         -- scalar overwrite (lines 1042-1065)
         if jsStrictVJ w v && !force then .ok (node, false, [])
         else
           let valueOldJ := jsonV w
           .ok (.node np nkeys (putV ndata key (.prim p)), true,
                emitPair fullPath .set v valueOldJ .undefined remote silent))
  | .pobj kvs =>
    -- a raw plain object container reaches the data-is-node fallback of the
    -- scalar branch when it owns the key; every other combination faults
    (match v with
     | .prim p =>
       (match lookupV kvs key with
        | some w =>
          if jsStrictVJ w v && !force then .ok (node, false, [])
          else
            .ok (.pobj (putV kvs key (.prim p)), true,
                 emitPair fullPath .set v (jsonV w) .undefined remote silent)
        | none => .error ())
     | _ => .error ())
  | .prim _ => .error ()
  termination_by (16 * jsize v + 8, 0)
  decreasing_by
  all_goals rw [Prod.lex_iff]
  all_goals try simp only [jsize, jsizeL, jsizeKv, List.length_cons, true_and, and_true]
  all_goals try omega

/-- The rebuild branch of the array replacement (lines 929-940): the stored
array is emptied, every new element is inserted through _doInsert with
duplicates allowed, then one silenced granular event fires per index. -/
def setArrRebuild (cfg : List String) (np : String) (nkeys : List String)
    (ndata : List (String × Value)) (key fullPath : String) (v : JVal)
    (ys : List JVal) (valueOldJ : JVal) (silent remote : Bool) :
    Except Unit (Value × Bool × List Event) := do
  let arrNew ← doInsertList cfg np key [] ys
  .ok (.node np nkeys (putV ndata key (.arr arrNew)), true,
       granularSetEvents fullPath remote valueOldJ 0 arrNew ++
         emitPair fullPath .set v valueOldJ .undefined remote silent)
  termination_by (16 * jsizeL ys + 15, 0)
  decreasing_by
  all_goals rw [Prod.lex_iff]
  all_goals try simp only [jsize, jsizeL, jsizeKv, List.length_cons, true_and, and_true]
  all_goals try omega

/-- The equal-length in-place element patch of the array replacement (lines
912-928): an Observer element is patched with remove-missing-keys, a
differing raw element is overwritten (the new value stored raw) with a
silenced granular event, an equal element is skipped. -/
def inplaceLoop (cfg : List String) (fullPath : String) (valueOldJ : JVal)
    (remote : Bool) :
    Nat → List Value → List JVal → Except Unit (List Value × List Event)
  | _, ws, [] => .ok (ws, [])
  | _, [], _ :: _ => .ok ([], [])
  | i, w :: ws, y :: ys =>
    match w with
    | .node cp ck cd => do
      let (w', evsP) ← patchTop cfg (.node cp ck cd) y true
      let (ws', evs') ← inplaceLoop cfg fullPath valueOldJ remote (i + 1) ws ys
      .ok (w' :: ws',
           prefixEvents (fullPath ++ "." ++ Nat.repr i) true evsP ++ evs')
    | _ =>
      if jsStrictVJ w y then do
        let (ws', evs') ← inplaceLoop cfg fullPath valueOldJ remote (i + 1) ws ys
        .ok (w :: ws', evs')
      else do
        let w' := rawJToValue y
        let (ws', evs') ← inplaceLoop cfg fullPath valueOldJ remote (i + 1) ws ys
        .ok (w' :: ws',
             emitPair (fullPath ++ "." ++ Nat.repr i) .set (jsonV w')
                 (jsIdxOrNull valueOldJ i) .undefined remote true ++ evs')
  termination_by _ _ ys => (16 * jsizeL ys + 14, 0)
  decreasing_by
  all_goals rw [Prod.lex_iff]
  all_goals try simp only [jsize, jsizeL, jsizeKv, List.length_cons, true_and, and_true]
  all_goals try omega

/-- The first merge loop (lines 972-990): every current member of the child,
in data order: one absent from the new value is unset (silently); one whose
value differs by _equals is set recursively (silently); the always-true
hasOwnProperty arm makes the remaining branch dead code. -/
def mergeLoop1 (cfg : List String) (fullPath : String) (v : JVal) :
    Value → List String → Except Unit (Value × Bool × List Event)
  | child, [] => .ok (child, false, [])
  | child, n :: rest =>
    match h : lookupKv (kvsOfJ v) n with
    | none => do
      let (child', c, evs) ← unsetFinal child n (fullPath ++ "." ++ n) true false
      let (child'', ch, evs2) ← mergeLoop1 cfg fullPath v child' rest
      .ok (child'', c || ch, evs ++ evs2)
    | some vn =>
      let storedN : Option Value :=
        match child with
        | .node _ _ cd => lookupV cd n
        | _ => none
      if !(equalsOptVJ storedN vn) then do
        let (child', c, evs) ←
          setFinal cfg child n (fullPath ++ "." ++ n) vn true false false
        let (child'', ch, evs2) ← mergeLoop1 cfg fullPath v child' rest
        .ok (child'', c || ch, evs ++ evs2)
      else mergeLoop1 cfg fullPath v child rest
  termination_by child ks => (16 * jsize v + 5, ks.length)
  decreasing_by
  all_goals rw [Prod.lex_iff]
  all_goals try simp only [jsize, jsizeL, jsizeKv, List.length_cons, true_and, and_true]
  all_goals try omega
  all_goals
    (have h1 := lookupJ_jsize h
     have h2 := kvsOfJ_jsize v
     omega)

/-- The second merge loop (lines 991-1027): every member of the new value,
in order: an undefined value unsets a present key; an object-typed value is
set recursively when the key is present and prepared otherwise; a differing
primitive is written in place with a silenced granular event whose path is
built from the stored _path of the child. -/
def mergeLoop2 (cfg : List String) (fullPath : String) (remote : Bool) :
    Value → List (String × JVal) → Except Unit (Value × Bool × List Event)
  | child, [] => .ok (child, false, [])
  | child, (ki, vi) :: rest =>
    let stored : Option Value :=
      match child with
      | .node _ _ cd => lookupV cd ki
      | _ => none
    if vi = .prim .undef && stored.isSome then do
      let (child', c, evs) ← unsetFinal child ki (fullPath ++ "." ++ ki) true false
      let (child'', ch, evs2) ← mergeLoop2 cfg fullPath remote child' rest
      .ok (child'', c || ch, evs ++ evs2)
    else if vi.typeofObject then
      if stored.isSome then do
        let (child', c, evs) ←
          setFinal cfg child ki (fullPath ++ "." ++ ki) vi true false false
        let (child'', ch, evs2) ← mergeLoop2 cfg fullPath remote child' rest
        .ok (child'', c || ch, evs ++ evs2)
      else do
        let (child', evs) ← prepare child ki vi true remote
        let (child'', ch, evs2) ← mergeLoop2 cfg fullPath remote child' rest
        .ok (child'', true || ch, evs ++ evs2)
    else if !(equalsOptVJ stored vi) then
      match child with
      | .node cp ck cd =>
        if !(jsStrictOptVJ stored vi) then do
          let ck' := if ki ∈ ck then ck else ck ++ [ki]
          let child' := Value.node cp ck' (putV cd ki (rawJToValue vi))
          let (child'', ch, evs2) ← mergeLoop2 cfg fullPath remote child' rest
          .ok (child'',
               true || ch,
               emitPair (cp ++ "." ++ ki) .set vi (.prim .null) .undefined remote true
                 ++ evs2)
        else mergeLoop2 cfg fullPath remote child rest
      | _ => .error ()
    else mergeLoop2 cfg fullPath remote child rest
  termination_by child kvs => (16 * jsizeKv kvs + 14, 0)
  decreasing_by
  all_goals rw [Prod.lex_iff]
  all_goals try simp only [jsize, jsizeL, jsizeKv, List.length_cons, true_and, and_true]
  all_goals try omega

/-- Observer._prepare (lines 731-813): introduce a fresh member under the
target node.  Pushes the key onto _keys first; an array value is stored as
a shallow copy whose plain-object elements become child Observers, whose
array elements stay raw and whose primitive elements emit silenced granular
events; an object value builds a bookkeeping record member by member; a
primitive is stored directly.  Always succeeds with true in the source; the
error cases are the TypeErrors of preparing onto an unexpected target. -/
def prepare (target : Value) (key : String) (v : JVal) (silent remote : Bool) :
    Except Unit (Value × List Event) :=
  match target with
  | .node tp tkeys tdata =>
    let path := joinPath tp key
    (match v with
     | .arr xs => do
       let (stored, evsEl) ← prepArrLoop path remote 0 xs
       .ok (.node tp (tkeys ++ [key]) (putV tdata key (.arr stored)),
            evsEl ++
              emitPair path .set (jsonV (.arr stored)) (.prim .null) .undefined
                remote silent)
     | .obj kvs => do
       let child0 : Value :=
         match lookupV tdata key with
         | some (.node cp ck cd) => .node cp ck cd
         | some (.arr ys) => .arr ys
         | some (.pobj pk) => .pobj pk
         | _ => .node path [] []
       let (child', evs) ← prepObjLoop path remote child0 kvs
       .ok (.node tp (tkeys ++ [key]) (putV tdata key child'),
            evs ++ emitPair path .set v .undefined .undefined remote silent)
     | .prim p =>
       .ok (.node tp (tkeys ++ [key]) (putV tdata key (.prim p)),
            emitPair path .set v .undefined .undefined remote silent))
  | _ => .error ()
  termination_by (16 * jsize v + 6, 0)
  decreasing_by
  all_goals rw [Prod.lex_iff]
  all_goals try simp only [jsize, jsizeL, jsizeKv, List.length_cons, true_and, and_true]
  all_goals try omega

/-- The element conversion loop of the array branch of _prepare (lines
737-759). -/
def prepArrLoop (path : String) (remote : Bool) :
    Nat → List JVal → Except Unit (List Value × List Event)
  | _, [] => .ok ([], [])
  | i, e :: rest =>
    match e with
    | .obj okvs => do
      let child ← buildRoot (.obj okvs)
      let (vs, evs) ← prepArrLoop path remote (i + 1) rest
      .ok (child :: vs, evs)
    | .arr ys => do
      let (vs, evs) ← prepArrLoop path remote (i + 1) rest
      .ok (rawJToValue (.arr ys) :: vs, evs)
    | .prim p => do
      let (vs, evs) ← prepArrLoop path remote (i + 1) rest
      .ok (.prim p :: vs,
           emitPair (path ++ "." ++ Nat.repr i) .set (.prim p) (.prim .null)
               .undefined remote true ++ evs)
  termination_by _ es => (16 * jsizeL es + 4, 0)
  decreasing_by
  all_goals rw [Prod.lex_iff]
  all_goals try simp only [jsize, jsizeL, jsizeKv, List.length_cons, true_and, and_true]
  all_goals try omega

/-- The member loop of the object branch of _prepare (lines 777-789):
object-typed members recurse; primitive members are written into _data and
pushed onto _keys with a silenced granular event; a child that is not a
bookkeeping record faults on those property writes. -/
def prepObjLoop (path : String) (remote : Bool) :
    Value → List (String × JVal) → Except Unit (Value × List Event)
  | child, [] => .ok (child, [])
  | child, (ki, vi) :: rest =>
    if vi.typeofObject then do
      let (child', evs1) ← prepare child ki vi true remote
      let (child'', evs2) ← prepObjLoop path remote child' rest
      .ok (child'', evs1 ++ evs2)
    else
      match child with
      | .node cp ck cd => do
        let child' := Value.node cp (ck ++ [ki]) (putV cd ki (rawJToValue vi))
        let (child'', evs2) ← prepObjLoop path remote child' rest
        .ok (child'',
             emitPair (path ++ "." ++ ki) .set vi (.prim .null) .undefined remote true
               ++ evs2)
      | _ => .error ()
  termination_by child kvs => (16 * jsizeKv kvs + 4, 0)
  decreasing_by
  all_goals rw [Prod.lex_iff]
  all_goals try simp only [jsize, jsizeL, jsizeKv, List.length_cons, true_and, and_true]
  all_goals try omega

/-- The Observer constructor on plain data with no options (new Observer):
patch the data into an empty root; construction events go nowhere because no
listener or parent is attached yet. -/
def buildRoot (d : JVal) : Except Unit Value := do
  let r ← patchTop [] (.node "" [] []) d false
  .ok r.1
  termination_by (16 * jsize d + 13, 0)
  decreasing_by
  all_goals rw [Prod.lex_iff]
  all_goals try simp only [jsize, jsizeL, jsizeKv, List.length_cons, true_and, and_true]
  all_goals try omega

/-- Observer.patch (lines 1427-1446): nothing for non-object data; every own
pair of the data is prepared (object-typed and new) or set (strictly
differing); with removeMissingKeys, tree keys absent from the data are then
unset. -/
def patchTop (cfg : List String) (tree : Value) (d : JVal)
    (removeMissing : Bool) : Except Unit (Value × List Event) :=
  match tree with
  | .node _ _ _ =>
    if d.typeofObject then do
      let (t1, evs1) ← patchLoop cfg tree (kvsOfJ d)
      if removeMissing then do
        let (t2, evs2) ← patchRemoveLoop (dataKeysOf t1) d t1
        .ok (t2, evs1 ++ evs2)
      else .ok (t1, evs1)
    else .ok (tree, [])
  | _ => .error ()
  termination_by (16 * jsize d + 12, 0)
  decreasing_by
  all_goals rw [Prod.lex_iff]
  all_goals try simp only [jsize, jsizeL, jsizeKv, List.length_cons, true_and, and_true]
  all_goals try omega
  all_goals (have h2 := kvsOfJ_jsize d; omega)

/-- The member loop of Observer.patch (lines 1431-1438). -/
def patchLoop (cfg : List String) :
    Value → List (String × JVal) → Except Unit (Value × List Event)
  | t, [] => .ok (t, [])
  | t, (k, v) :: rest =>
    match t with
    | .node _ _ tdata =>
      if v.typeofObject && (lookupV tdata k).isNone then do
        let (t', evs1) ← prepare t k v false false
        let (t'', evs2) ← patchLoop cfg t' rest
        .ok (t'', evs1 ++ evs2)
      else if !(jsStrictOptVJ (lookupV tdata k) v) then do
        let (t', r, evs1) ← setTop cfg t k v false false false
        let _ := r
        let (t'', evs2) ← patchLoop cfg t' rest
        .ok (t'', evs1 ++ evs2)
      else patchLoop cfg t rest
    | _ => .error ()
  termination_by t kvs => (16 * jsizeKv kvs + 11, 0)
  decreasing_by
  all_goals rw [Prod.lex_iff]
  all_goals try simp only [jsize, jsizeL, jsizeKv, List.length_cons, true_and, and_true]
  all_goals try omega

/-- Observer._doInsert (lines 1339-1371): convert the value (a plain object
becomes a child Observer, an array a raw shallow copy), reject a non-null
duplicate unless duplicates are allowed or the path is exempted, then push
or splice in.  Returns the new array and the serialized inserted value, or
none (undefined) when the duplicate was rejected. -/
def doInsert (cfg : List String) (targetPath key : String) (arr : List Value)
    (v : JVal) (ind : Option Int) (allowDuplicates : Bool) :
    Except Unit (List Value × Option JVal) := do
  let conv : Value ←
    match v with
    | .obj kvs => buildRoot (.obj kvs)
    | .arr xs => pure (rawJToValue (.arr xs))
    | .prim p => pure (.prim p)
  let path := joinPath targetPath key
  let notNull : Bool :=
    match conv with
    | .prim .null => false
    | _ => true
  if notNull && !allowDuplicates && !(cfg.contains path) then
    match jsIndexOfPrim arr conv with
    | some _ => .ok (arr, none)
    | none =>
      let arr' :=
        match ind with
        | none => arr ++ [conv]
        | some i => jsSpliceInsert arr i conv
      .ok (arr', some (jsonV conv))
  else
    let arr' :=
      match ind with
      | none => arr ++ [conv]
      | some i => jsSpliceInsert arr i conv
    .ok (arr', some (jsonV conv))
  termination_by (16 * jsize v + 15, 0)
  decreasing_by
  all_goals rw [Prod.lex_iff]
  all_goals try simp only [jsize, jsizeL, jsizeKv, List.length_cons, true_and, and_true]
  all_goals try omega

/-- The forEach of the array rebuild: insert every element with duplicates
allowed (the stored array starts out empty). -/
def doInsertList (cfg : List String) (targetPath key : String) :
    List Value → List JVal → Except Unit (List Value)
  | arr, [] => .ok arr
  | arr, y :: ys => do
    let (arr', _) ← doInsert cfg targetPath key arr y none true
    doInsertList cfg targetPath key arr' ys
  termination_by _ ys => (16 * jsizeL ys + 14, 1)
  decreasing_by
  all_goals rw [Prod.lex_iff]
  all_goals try simp only [jsize, jsizeL, jsizeKv, List.length_cons, true_and, and_true]
  all_goals try omega

end

end Obs

namespace Obs

/-- The shared traversal of remove, removeValue, insert and move (the loop
over all but the last path segment): an array intermediate is subscripted
with parseInt (an absent slot leaves undefined, which faults at its next
property access); a node intermediate guarded by hasOwnProperty returns the
operation-specific failure value when the key is missing; a null or
undefined intermediate faults on the _data read; any other value falls to
the same early return.  A child Observer met inside an array only rebases
the event target, which full-path events render as the identity. -/
def irmGo (fail : Prim)
    (final : Value → String → String → Except Unit (Value × Prim × List Event)) :
    Value → List String → String → Except Unit (Value × Prim × List Event)
  | node, [key], p => final node key p
  | node, k :: rest, p =>
    (match node with
     | .arr xs =>
       (match jsParseInt k with
        | some i =>
          (match jsArrGetInt xs i with
           | some child => do
             let (child', r, evs) ← irmGo fail final child rest p
             .ok (.arr (xs.set i.toNat child'), r, evs)
           | none => .error ())
        | none => .error ())
     | .node np nkeys ndata =>
       (match lookupV ndata k with
        | some child => do
          let (child', r, evs) ← irmGo fail final child rest p
          .ok (.node np nkeys (putV ndata k child'), r, evs)
        | none => .ok (node, fail, []))
     | .prim .null => .error ()
     | .prim .undef => .error ()
     | _ => .ok (node, fail, []))
  | node, [], _ => .error ()

/-- The final step of Observer.remove (lines 1209-1233). -/
def removeFinal (ind : Int) (silent remote : Bool)
    (node : Value) (key fullPath : String) :
    Except Unit (Value × Prim × List Event) :=
  match node with
  | .prim .null => .error ()
  | .prim .undef => .error ()
  | .node p keys data =>
    (match lookupV data key with
     | some (.arr arr) =>
       if (arr.length : Int) < ind then .ok (node, .bool false, [])
       else
         let valueJ : JVal :=
           match jsArrGetInt arr ind with
           | some w => jsonV w
           | none => .prim .undef
         .ok (.node p keys (putV data key (.arr (jsSpliceRemove arr ind))),
              .bool true,
              emitPair fullPath .remove valueJ (.prim (.num ind)) .undefined
                remote silent)
     | _ => .ok (node, .bool false, []))
  | _ => .ok (node, .bool false, [])

/-- The final step of Observer.removeValue (lines 1262-1290): indexOf is a
strict-equality scan, so only a primitive argument can match a stored slot
(a fresh object or array argument is a different reference from anything
stored). -/
def removeValueFinal (v : JVal) (silent remote : Bool)
    (node : Value) (key fullPath : String) :
    Except Unit (Value × Prim × List Event) :=
  match node with
  | .prim .null => .error ()
  | .prim .undef => .error ()
  | .node p keys data =>
    (match lookupV data key with
     | some (.arr arr) =>
       (match (match v with
               | .prim q => jsIndexOfPrim arr (.prim q)
               | _ => none) with
        | none => .ok (node, .undef, [])
        | some ind =>
          let valueJ : JVal :=
            match arr.get? ind with
            | some w => jsonV w
            | none => .prim .undef
          .ok (.node p keys (putV data key (.arr (jsSpliceRemove arr ind))),
               .bool true,
               emitPair fullPath .remove valueJ (.prim (.num (ind : Int)))
                   .undefined remote silent))
     | _ => .ok (node, .undef, []))
  | _ => .ok (node, .undef, [])

/-- The final step of Observer.insert (lines 1320-1337): _doInsert converts
and possibly rejects the value, yet insert still emits the pair and returns
true; when the index was omitted it is read back from the length of the
mutated array. -/
def insertFinal (cfg : List String) (v : JVal) (ind : Option Int)
    (silent remote : Bool) (node : Value) (key fullPath : String) :
    Except Unit (Value × Prim × List Event) :=
  match node with
  | .prim .null => .error ()
  | .prim .undef => .error ()
  | .node p keys data =>
    (match lookupV data key with
     | some (.arr arr) => do
       let (arr', insJ) ← doInsert cfg p key arr v ind false
       let indOut : Int :=
         match ind with
         | none => (arr'.length : Int) - 1
         | some i => i
       let valueJ : JVal :=
         match insJ with
         | some j => j
         | none => .prim .undef
       .ok (.node p keys (putV data key (.arr arr')), .bool true,
            emitPair fullPath .insert valueJ (.prim (.num indOut)) .undefined
              remote silent)
     | _ => .ok (node, .undef, []))
  | _ => .ok (node, .undef, [])

/-- The final step of Observer.move (lines 1400-1425). -/
def moveFinal (indOld indNew : Int) (silent remote : Bool)
    (node : Value) (key fullPath : String) :
    Except Unit (Value × Prim × List Event) :=
  match node with
  | .prim .null => .error ()
  | .prim .undef => .error ()
  | .node p keys data =>
    (match lookupV data key with
     | some (.arr arr) =>
       if (arr.length : Int) < indOld || (arr.length : Int) < indNew
           || indOld = indNew then
         .ok (node, .undef, [])
       else
         let stored := (jsArrGetInt arr indOld).getD (.prim .undef)
         let arr1 := jsSpliceRemove arr indOld
         let indNew' : Int := if indNew = -1 then (arr1.length : Int) else indNew
         let arr2 := jsSpliceInsert arr1 indNew' stored
         .ok (.node p keys (putV data key (.arr arr2)), .bool true,
              emitPair fullPath .move (jsonV stored) (.prim (.num indNew'))
                (.prim (.num indOld)) remote silent)
     | _ => .ok (node, .undef, []))
  | _ => .ok (node, .undef, [])

/-- Observer.remove (lines 1189-1234). -/
def Observer.remove (root : Value) (path : String) (ind : Int)
    (silent remote : Bool) : Except Unit (Value × Prim × List Event) :=
  irmGo (.bool false) (removeFinal ind silent remote) root (splitPath path) path

/-- Observer.removeValue (lines 1242-1291). -/
def Observer.removeValue (root : Value) (path : String) (v : JVal)
    (silent remote : Bool) : Except Unit (Value × Prim × List Event) :=
  irmGo .undef (removeValueFinal v silent remote) root (splitPath path) path

/-- Observer.insert (lines 1300-1338). -/
def Observer.insert (cfg : List String) (root : Value) (path : String)
    (v : JVal) (ind : Option Int) (silent remote : Bool) :
    Except Unit (Value × Prim × List Event) :=
  irmGo .undef (insertFinal cfg v ind silent remote) root (splitPath path) path

/-- Observer.move (lines 1380-1426). -/
def Observer.move (root : Value) (path : String) (indOld indNew : Int)
    (silent remote : Bool) : Except Unit (Value × Prim × List Event) :=
  irmGo .undef (moveFinal indOld indNew silent remote) root (splitPath path) path

/-- Observer.set (lines 822-1066), on the root with the split path. -/
def Observer.set (cfg : List String) (root : Value) (path : String) (v : JVal)
    (silent remote force : Bool) : Except Unit (Value × Bool × List Event) :=
  setTop cfg root path v silent remote force

end Obs

namespace Obs

theorem lookupV_putV_self (ds : List (String × Value)) (k : String) (v : Value) :
    lookupV (putV ds k v) k = some v := by
  induction ds with
  | nil => simp [putV, lookupV]
  | cons kv rest ih =>
    obtain ⟨k0, w0⟩ := kv
    by_cases h : k0 = k
    · simp [putV, lookupV, h]
    · simp [putV, lookupV, h, ih]

theorem putV_self {ds : List (String × Value)} {k : String} {v : Value}
    (h : lookupV ds k = some v) : putV ds k v = ds := by
  induction ds with
  | nil => simp [lookupV] at h
  | cons kv rest ih =>
    obtain ⟨k0, w0⟩ := kv
    by_cases hk : k0 = k
    · rw [lookupV] at h
      simp [hk] at h
      simp [putV, hk, h]
    · rw [lookupV] at h
      simp [hk] at h
      simp [putV, hk, ih h]

theorem putV_putV (ds : List (String × Value)) (k : String) (v w : Value) :
    putV (putV ds k v) k w = putV ds k w := by
  induction ds with
  | nil => simp [putV]
  | cons kv rest ih =>
    obtain ⟨k0, w0⟩ := kv
    by_cases h : k0 = k
    · simp [putV, h]
    · simp [putV, h, ih]

end Obs

namespace Obs

end Obs

namespace Obs

set_option maxHeartbeats 1000000 in
/-- Unfolding lemma: the traversal on a single-segment path goes straight to
the final step. -/
theorem setGo_single (cfg : List String) (node : Value) (key fullPath : String)
    (v : JVal) (s r fc : Bool) :
    setGo cfg node [key] fullPath v s r fc =
      setFinal cfg node key fullPath v s r fc := by
  rw [setGo.eq_def]

set_option maxHeartbeats 1000000 in
/-- The scalar-overwrite branch of the final set step: with a primitive
stored under the key and a primitive new value, the write is skipped exactly
when the values are strictly equal and force is off. -/
theorem setFinal_prim_present {ndata : List (String × Value)} {key : String}
    {q : Prim} (cfg : List String) (np : String) (nkeys : List String)
    (fullPath : String) (p : Prim) (s r fc : Bool)
    (hlook : lookupV ndata key = some (.prim q)) :
    setFinal cfg (.node np nkeys ndata) key fullPath (.prim p) s r fc =
      if (q == p) && !fc then .ok (.node np nkeys ndata, false, [])
      else .ok (.node np nkeys (putV ndata key (.prim p)), true,
                emitPair fullPath .set (.prim p) (.prim q) .undefined r s) := by
  rw [setFinal.eq_def]
  simp only [hlook, jsStrictVJ, jsonV]

set_option maxHeartbeats 1000000 in
/-- The array-equal no-op branch of the final set step. -/
theorem setFinal_arr_equal {ndata : List (String × Value)} {key : String}
    {w : Value} {ys : List JVal} (cfg : List String) (np : String)
    (nkeys : List String) (fullPath : String) (s r : Bool)
    (hlook : lookupV ndata key = some w)
    (haeq : aeJV ys w = true) :
    setFinal cfg (.node np nkeys ndata) key fullPath (.arr ys) s r false =
      .ok (.node np nkeys ndata, false, []) := by
  rw [setFinal.eq_def]
  simp only [hlook, haeq, Bool.not_false, Bool.and_true, if_pos]

/-- C2 (amended): for a primitive stored under a single-segment path, set
with an equal primitive returns false and emits nothing, and the same call
with force = true returns true and emits the set pair; for an array equal to
the stored array under the deep compare, set without force is likewise a
no-op.  The force escape does not apply to object values (see the
object-merge counterexample). -/
theorem c2_set_noop_vs_force
    (cfg : List String) (np npA : String) (nkeys nkeysA : List String)
    (ndata ndataA : List (String × Value)) (key keyA : String)
    (p : Prim) (ws : List Value) (ys : List JVal) (s r : Bool)
    (hsplit : splitPath key = [key])
    (hlook : lookupV ndata key = some (.prim p))
    (hsplitA : splitPath keyA = [keyA])
    (hlookA : lookupV ndataA keyA = some (.arr ws))
    (haeq : aeJV ys (.arr ws) = true) :
    Observer.set cfg (.node np nkeys ndata) key (.prim p) s r false =
      .ok (.node np nkeys ndata, false, []) ∧
    Observer.set cfg (.node np nkeys ndata) key (.prim p) s r true =
      .ok (.node np nkeys (putV ndata key (.prim p)), true,
           emitPair key .set (.prim p) (.prim p) .undefined r s) ∧
    Observer.set cfg (.node npA nkeysA ndataA) keyA (.arr ys) s r false =
      .ok (.node npA nkeysA ndataA, false, []) := by
  refine ⟨?_, ?_, ?_⟩
  · simp only [Observer.set, setTop, hsplit, setGo_single,
      setFinal_prim_present cfg np nkeys key p s r false hlook,
      beq_self_eq_true, Bool.not_false, Bool.and_true, if_pos]
  · simp only [Observer.set, setTop, hsplit, setGo_single,
      setFinal_prim_present cfg np nkeys key p s r true hlook,
      Bool.not_true, Bool.and_false, Bool.false_eq_true, not_false_eq_true,
      if_neg]
  · simp only [Observer.set, setTop, hsplitA, setGo_single,
      setFinal_arr_equal cfg npA nkeysA keyA s r hlookA haeq]

/-- C2 (witness): the amended theorem at the tree {a: 5, b: [1, 2]} with an
equal scalar and an equal array. -/
theorem c2_set_noop_vs_force_witness :
    (splitPath "a" = ["a"] ∧
     lookupV [("a", Value.prim (.num 5)), ("b", Value.arr [.prim (.num 1)])] "a" =
       some (.prim (.num 5)) ∧
     aeJV [JVal.prim (.num 1)] (.arr [.prim (.num 1)]) = true) ∧
    Observer.set [] (.node "" ["a", "b"]
        [("a", Value.prim (.num 5)), ("b", Value.arr [.prim (.num 1)])])
      "a" (.prim (.num 5)) false false false =
      .ok (.node "" ["a", "b"]
        [("a", Value.prim (.num 5)), ("b", Value.arr [.prim (.num 1)])],
        false, []) ∧
    Observer.set [] (.node "" ["a", "b"]
        [("a", Value.prim (.num 5)), ("b", Value.arr [.prim (.num 1)])])
      "b" (.arr [.prim (.num 1)]) false false false =
      .ok (.node "" ["a", "b"]
        [("a", Value.prim (.num 5)), ("b", Value.arr [.prim (.num 1)])],
        false, []) := by
  have haeq : aeJV [JVal.prim (.num 1)] (Value.arr [.prim (.num 1)]) = true := by
    simp [aeJV, aeJVList, jsStrictVJ, Value.truthyV]
  have h := c2_set_noop_vs_force [] "" "" ["a", "b"] ["a", "b"]
    [("a", Value.prim (.num 5)), ("b", Value.arr [.prim (.num 1)])]
    [("a", Value.prim (.num 5)), ("b", Value.arr [.prim (.num 1)])]
    "a" "b" (.num 5) [.prim (.num 1)] [JVal.prim (.num 1)] false false
    rfl rfl rfl rfl haeq
  exact ⟨⟨rfl, rfl, haeq⟩, h.1, h.2.2⟩

set_option maxHeartbeats 1000000 in
/-- C2 (counterexample): on the tree {a: {b: 1}}, set("a", {b: 1}) with
force = true returns false and emits nothing: the object-merge branch of
Observer.set never consults the force flag, so the claimed force-true
behaviour does not hold for object values. -/
theorem c2_counterexample :
    (buildRoot (.obj [("a", .obj [("b", .prim (.num 1))])]) =
      .ok (.node "" ["a"] [("a", .node "a" ["b"] [("b", .prim (.num 1))])]) ∧
     Observer.set []
       (.node "" ["a"] [("a", .node "a" ["b"] [("b", .prim (.num 1))])])
       "a" (.obj [("b", .prim (.num 1))]) false false true =
      .ok (.node "" ["a"] [("a", .node "a" ["b"] [("b", .prim (.num 1))])],
           false, [])) := by
  constructor
  · simp only [buildRoot, patchTop, patchLoop, prepare, prepObjLoop, kvsOfJ,
      JVal.typeofObject, lookupV, putV, joinPath, rawJToValue, dataKeysOf,
      Option.isNone]
    rfl
  · simp [Observer.set, setTop,
      show splitPath "a" = ["a"] from rfl, setGo_single, setFinal,
      mergeLoop1, mergeLoop2, dataKeysOf, lookupV, putV, kvsOfJ, lookupKv,
      equalsOptVJ, equalsVJ, jsStrictVJ, Value.truthyV, jsonV, jsonKeys,
      jsonL, JVal.typeofObject, Except.instMonad, Except.bind]

end Obs

namespace Obs

set_option maxHeartbeats 1000000 in
/-- C3 (amended): when an intermediate path segment is a missing key of a
bookkeeping node, insert, removeValue and move return undefined and remove
returns false, all without mutating the tree, without events and without
throwing; set instead auto-creates the missing intermediates and returns
true; unset is the exception of the claim: it faults on the missing
intermediate (see the counterexample). -/
theorem c3_missing_intermediate
    (cfg : List String) (np : String) (nkeys : List String)
    (ndata : List (String × Value)) (path k k2 : String) (rest : List String)
    (v : JVal) (ind : Option Int) (i iN : Int) (s r : Bool)
    (hsplit : splitPath path = k :: k2 :: rest)
    (hlook : lookupV ndata k = none) :
    Observer.insert cfg (.node np nkeys ndata) path v ind s r =
      .ok (.node np nkeys ndata, .undef, []) ∧
    Observer.remove (.node np nkeys ndata) path i s r =
      .ok (.node np nkeys ndata, .bool false, []) ∧
    Observer.removeValue (.node np nkeys ndata) path v s r =
      .ok (.node np nkeys ndata, .undef, []) ∧
    Observer.move (.node np nkeys ndata) path i iN s r =
      .ok (.node np nkeys ndata, .undef, []) ∧
    Observer.set [] (.node "" [] []) "a.b" (.prim (.num 7)) false false false =
      .ok (.node "" ["a"] [("a", .node "a.b" ["b"] [("b", .prim (.num 7))])],
           true,
           emitPair "a.b" .set (.prim (.num 7)) (.prim .null) .undefined false false) := by
  refine ⟨?_, ?_, ?_, ?_, ?_⟩
  · simp only [Observer.insert, hsplit, irmGo, hlook]
  · simp only [Observer.remove, hsplit, irmGo, hlook]
  · simp only [Observer.removeValue, hsplit, irmGo, hlook]
  · simp only [Observer.move, hsplit, irmGo, hlook]
  · simp [Observer.set, setTop, show splitPath "a.b" = ["a", "b"] from rfl,
      setGo, setGo_single, setFinal, lookupV, putV, rawJToValue,
      JVal.typeofObject, jsonV, Except.instMonad, Except.bind]

/-- C3 (witness): the amended theorem on the tree {x: 1} and the path "a.b",
whose first segment is absent. -/
theorem c3_missing_intermediate_witness :
    (splitPath "a.b" = ["a", "b"] ∧
     lookupV [("x", Value.prim (.num 1))] "a" = none) ∧
    Observer.insert [] (.node "" ["x"] [("x", Value.prim (.num 1))]) "a.b"
        (.prim (.num 2)) none false false =
      .ok (.node "" ["x"] [("x", Value.prim (.num 1))], .undef, []) ∧
    Observer.remove (.node "" ["x"] [("x", Value.prim (.num 1))]) "a.b"
        0 false false =
      .ok (.node "" ["x"] [("x", Value.prim (.num 1))], .bool false, []) := by
  have h := c3_missing_intermediate [] "" ["x"] [("x", Value.prim (.num 1))]
    "a.b" "a" "b" [] (.prim (.num 2)) none 0 0 false false rfl rfl
  exact ⟨⟨rfl, rfl⟩, h.1, h.2.1⟩

/-- C3 (counterexample): unset("a.b") on the empty tree throws a TypeError
(reading the _data member of undefined), contradicting the claim that no
mutation API raises on a missing intermediate segment. -/
theorem c3_counterexample :
    Observer.unset (.node "" [] []) "a.b" false false = .error () := by
  rfl

end Obs

namespace Obs

theorem jsIndexOfPrim_go_append (p : Prim) (xs : List Value) (i : Nat)
    (h : jsIndexOfPrim.go p xs i = none) :
    jsIndexOfPrim.go p (xs ++ [Value.prim p]) i = some (i + xs.length) := by
  induction xs generalizing i with
  | nil =>
    simp [jsIndexOfPrim.go]
  | cons w rest ih =>
    cases w with
    | prim pw =>
      by_cases hpw : pw = p
      · subst hpw
        rw [jsIndexOfPrim.go] at h
        simp at h
      · rw [jsIndexOfPrim.go] at h
        simp only [hpw, if_false] at h
        simp only [List.cons_append]
        rw [jsIndexOfPrim.go]
        simp only [hpw, if_false]
        rw [ih (i + 1) h]
        simp only [Option.some.injEq, List.length_cons]
        omega
    | arr xs =>
      rw [jsIndexOfPrim.go] at h
      simp only [List.cons_append]
      rw [jsIndexOfPrim.go]
      rw [ih (i + 1) h]
      simp only [Option.some.injEq, List.length_cons]
      omega
      all_goals intro q hq
      all_goals exact Value.noConfusion hq
    | node a b c =>
      rw [jsIndexOfPrim.go] at h
      simp only [List.cons_append]
      rw [jsIndexOfPrim.go]
      rw [ih (i + 1) h]
      simp only [Option.some.injEq, List.length_cons]
      omega
      all_goals intro q hq
      all_goals exact Value.noConfusion hq
    | pobj kv =>
      rw [jsIndexOfPrim.go] at h
      simp only [List.cons_append]
      rw [jsIndexOfPrim.go]
      rw [ih (i + 1) h]
      simp only [Option.some.injEq, List.length_cons]
      omega
      all_goals intro q hq
      all_goals exact Value.noConfusion hq

theorem jsIndexOfPrim_append {ws : List Value} {q : Prim}
    (h : jsIndexOfPrim ws (.prim q) = none) :
    jsIndexOfPrim (ws ++ [Value.prim q]) (.prim q) = some ws.length := by
  rw [jsIndexOfPrim] at h ⊢
  rw [jsIndexOfPrim_go_append q ws 0 h]
  simp

theorem jsSpliceRemove_last (ws : List Value) (x : Value) :
    jsSpliceRemove (ws ++ [x]) (ws.length : Int) = ws := by
  rw [jsSpliceRemove]
  have h1 : ¬ ((ws.length : Int) < 0) := by omega
  simp only [h1, if_false, Int.toNat_natCast, List.length_append,
    List.length_cons, List.length_nil]
  have h2 : min ws.length (ws.length + 1) = ws.length := by omega
  rw [h2]
  rw [List.take_left]
  rw [List.drop_eq_nil_of_le (by simp)]
  simp

end Obs

namespace Obs

set_option maxHeartbeats 1000000 in
theorem doInsert_prim_append (cfg : List String) (np key : String)
    (ws : List Value) (q : Prim)
    (h : jsIndexOfPrim ws (.prim q) = none) :
    doInsert cfg np key ws (.prim q) none false =
      .ok (ws ++ [Value.prim q], some (.prim q)) := by
  rw [doInsert.eq_def]
  by_cases hc : cfg.contains (joinPath np key) <;>
    cases q <;>
    simp [h, hc, jsonV, Except.instMonad, Except.bind, pure, Except.pure]

end Obs

namespace Obs

set_option maxHeartbeats 1000000 in
/-- C4 (amended): for a stored array containing no occurrence of the
primitive x (and a single-segment path), insert(p, x) appends x and returns
true, and removeValue(p, x) then removes exactly the appended element,
restoring the original tree. -/
theorem c4_insert_removeValue
    (cfg : List String) (np : String) (nkeys : List String)
    (ndata : List (String × Value)) (key : String) (q : Prim)
    (ws : List Value) (s r : Bool)
    (hsplit : splitPath key = [key])
    (hlook : lookupV ndata key = some (.arr ws))
    (hq : jsIndexOfPrim ws (.prim q) = none) :
    Observer.insert cfg (.node np nkeys ndata) key (.prim q) none s r =
      .ok (.node np nkeys (putV ndata key (.arr (ws ++ [.prim q]))), .bool true,
           emitPair key .insert (.prim q) (.prim (.num (ws.length : Int)))
             .undefined r s) ∧
    Observer.removeValue
        (.node np nkeys (putV ndata key (.arr (ws ++ [.prim q])))) key
        (.prim q) s r =
      .ok (.node np nkeys ndata, .bool true,
           emitPair key .remove (.prim q) (.prim (.num (ws.length : Int)))
             .undefined r s) := by
  constructor
  · simp only [Observer.insert, hsplit, irmGo, insertFinal, hlook,
      doInsert_prim_append cfg np key ws q hq, Except.instMonad, Except.bind,
      jsonV]
    simp
  · simp only [Observer.removeValue, hsplit, irmGo, removeValueFinal,
      lookupV_putV_self, jsIndexOfPrim_append hq, List.get?_concat_length,
      jsSpliceRemove_last, putV_putV, putV_self hlook, jsonV]

end Obs

namespace Obs

/-- C4 (witness): the amended theorem on the tree {a: [1]} with the fresh
value 2: insert appends, removeValue restores {a: [1]} exactly. -/
theorem c4_insert_removeValue_witness :
    (splitPath "a" = ["a"] ∧
     lookupV [("a", Value.arr [.prim (.num 1)])] "a" =
       some (.arr [.prim (.num 1)]) ∧
     jsIndexOfPrim [Value.prim (.num 1)] (.prim (.num 2)) = none) ∧
    Observer.insert [] (.node "" ["a"] [("a", .arr [.prim (.num 1)])]) "a"
        (.prim (.num 2)) none false false =
      .ok (.node "" ["a"] [("a", .arr [.prim (.num 1), .prim (.num 2)])],
           .bool true,
           emitPair "a" .insert (.prim (.num 2)) (.prim (.num 1)) .undefined
             false false) ∧
    Observer.removeValue
        (.node "" ["a"] [("a", .arr [.prim (.num 1), .prim (.num 2)])]) "a"
        (.prim (.num 2)) false false =
      .ok (.node "" ["a"] [("a", .arr [.prim (.num 1)])], .bool true,
           emitPair "a" .remove (.prim (.num 2)) (.prim (.num 1)) .undefined
             false false) := by
  have h := c4_insert_removeValue [] "" ["a"]
    [("a", Value.arr [.prim (.num 1)])] "a" (.num 2) [Value.prim (.num 1)]
    false false rfl rfl rfl
  exact ⟨⟨rfl, rfl, rfl⟩, h.1, h.2⟩

set_option maxHeartbeats 1000000 in
/-- C4 (counterexample): on the tree {a: [1]}, insert("a", 1) is rejected as
a duplicate by _doInsert yet still returns true (and emits an insert pair
whose value argument is undefined), and the subsequent removeValue("a", 1)
removes the element that was present before the insert, leaving {a: []}
instead of the pre-insert state {a: [1]}. -/
theorem c4_counterexample :
    Observer.insert [] (.node "" ["a"] [("a", .arr [.prim (.num 1)])]) "a"
        (.prim (.num 1)) none false false =
      .ok (.node "" ["a"] [("a", .arr [.prim (.num 1)])], .bool true,
           emitPair "a" .insert (.prim .undef) (.prim (.num 0)) .undefined
             false false) ∧
    Observer.removeValue (.node "" ["a"] [("a", .arr [.prim (.num 1)])]) "a"
        (.prim (.num 1)) false false =
      .ok (.node "" ["a"] [("a", .arr [])], .bool true,
           emitPair "a" .remove (.prim (.num 1)) (.prim (.num 0)) .undefined
             false false) ∧
    (Value.arr [] : Value) ≠ .arr [.prim (.num 1)] := by
  refine ⟨?_, ?_, ?_⟩
  · simp [Observer.insert, show splitPath "a" = ["a"] from rfl, irmGo,
      insertFinal, doInsert, lookupV, putV, joinPath, jsIndexOfPrim,
      jsIndexOfPrim.go, jsonV, Except.instMonad, Except.bind, pure,
      Except.pure]
  · simp [Observer.removeValue, show splitPath "a" = ["a"] from rfl, irmGo,
      removeValueFinal, lookupV, putV, jsIndexOfPrim, jsIndexOfPrim.go,
      jsSpliceRemove, jsonV]
  · simp

end Obs

namespace Obs

/-- The replay data captured by one closure of an ObserverHistory action
(observer.mjs lines 1574-1724): each closure re-runs one mutation API on the
current item with the values captured from the recorded wildcard event. -/
inductive RAction where
  | rset (path : String) (v : JVal)
  | runset (path : String)
  | rinsert (path : String) (v : JVal) (ind : JVal)
  | rremoveValue (path : String) (v : JVal)
  | rmove (path : String) (indFrom indTo : JVal)
  deriving DecidableEq

/-- The index argument a replay closure passes to insert: the captured event
argument, a number or undefined. -/
def jvIndOpt : JVal → Option Int
  | .prim (.num n) => some n
  | _ => none

/-- A numeric event argument (the index arguments of move are always
numbers). -/
def jvInt : JVal → Int
  | .prim (.num n) => n
  | _ => 0

/-- The undo closure built by the ObserverHistory handler for one wildcard
event: for a set, unset when the captured valueOld is undefined and set to
valueOld otherwise; for the other verbs the inverse operation on the
captured arguments. -/
def undoRA (e : Event) : RAction :=
  match e.verb with
  | .set => if e.arg2 = .prim .undef then .runset e.path else .rset e.path e.arg2
  | .unset => .rset e.path e.value
  | .insert => .rremoveValue e.path e.value
  | .remove => .rinsert e.path e.value e.arg2
  | .move => .rmove e.path e.arg2 e.arg3

/-- The redo closure of the same handler. -/
def redoRA (e : Event) : RAction :=
  match e.verb with
  | .set => if e.value = .prim .undef then .runset e.path else .rset e.path e.value
  | .unset => .runset e.path
  | .insert => .rinsert e.path e.value e.arg2
  | .remove => .rremoveValue e.path e.value
  | .move => .rmove e.path e.arg3 e.arg2

/-- The History action the ObserverHistory handler adds for one wildcard
event, with the default prefix ('') and combine flag (false). -/
def actionOfEvent (e : Event) : HAct RAction :=
  { name := e.path, combine := false,
    undo := some (undoRA e), redo := some (redoRA e) }

/-- Replay one captured closure against a tree.  The item is the tree
itself (item.latest() returns the item for a plain Observer) and recording
is disabled around the call, so replays record nothing. -/
def execRA (t : Value) : RAction → Except Unit Value
  | .rset p v => (Observer.set [] t p v false false false).map fun x => x.1
  | .runset p => (Observer.unset t p false false).map fun x => x.1
  | .rinsert p v i =>
    (Observer.insert [] t p v (jvIndOpt i) false false).map fun x => x.1
  | .rremoveValue p v =>
    (Observer.removeValue t p v false false).map fun x => x.1
  | .rmove p f g =>
    (Observer.move t p (jvInt f) (jvInt g) false false).map fun x => x.1

/-- A StateTree with a HistoryStack attached through a HistoryBinding: the
tree, the stack state, and the binding's enabled flag. -/
structure Doc where
  tree : Value
  hist : HistoryState RAction
  enabled : Bool

/-- The recording pass of the binding: every wildcard event that is not
silenced (the handlers see nothing during a silence window because silence
disables the binding) adds one action to the stack while the binding is
enabled. -/
def recordEvents (enabled : Bool) (h : HistoryState RAction) :
    List Event → HistoryState RAction
  | [] => h
  | e :: rest =>
    recordEvents enabled
      (if enabled && e.wild && !e.silenced then (h.add (actionOfEvent e)).1 else h)
      rest

/-- item.set through the binding: run the mutation, then record its events. -/
def docSet (d : Doc) (path : String) (v : JVal) : Except Unit Doc :=
  (Observer.set [] d.tree path v false false false).map fun x =>
    ⟨x.1, recordEvents d.enabled d.hist x.2.2, d.enabled⟩

/-- await stack.undo(): read the current action, move the cursor, replay the
undo closure with recording disabled (a throwing closure is caught and
logged, leaving the tree as the failed replay left it; the scalar replays of
the claims never throw), then leave the executing section. -/
def docUndo (d : Doc) : Doc :=
  if d.hist.canUndo then
    match d.hist.currentAction with
    | some act =>
      (match act.undo with
       | some ra =>
         let t' := match execRA d.tree ra with
           | .ok x => x
           | .error _ => d.tree
         ⟨t', d.hist.undoBegin.finishExec, d.enabled⟩
       | none => ⟨d.tree, d.hist.undoBegin.finishExec, d.enabled⟩)
    | none => ⟨d.tree, d.hist.undoBegin.finishExec, d.enabled⟩
  else d

/-- await stack.redo(): move the cursor, read the action now under it,
replay its redo closure with recording disabled, leave the executing
section. -/
def docRedo (d : Doc) : Doc :=
  if d.hist.canRedo then
    match d.hist.redoBegin.currentAction with
    | some act =>
      (match act.redo with
       | some ra =>
         let t' := match execRA d.tree ra with
           | .ok x => x
           | .error _ => d.tree
         ⟨t', d.hist.redoBegin.finishExec, d.enabled⟩
       | none => ⟨d.tree, d.hist.redoBegin.finishExec, d.enabled⟩)
    | none => ⟨d.tree, d.hist.redoBegin.finishExec, d.enabled⟩
  else d

/-- n awaited calls in sequence. -/
def iterDoc (f : Doc → Doc) : Nat → Doc → Doc
  | 0, d => d
  | n + 1, d => iterDoc f n (f d)

/-- A sequence of set calls through the binding. -/
def applySets : Doc → List (String × JVal) → Except Unit Doc
  | d, [] => .ok d
  | d, (k, v) :: rest => (docSet d k v).bind fun d' => applySets d' rest

/-- The stack state after a run of successful adds: cursor at the tail,
canUndo cached true once anything was added, canRedo cached false. -/
def mkHist (acts : List (HAct RAction)) : HistoryState RAction :=
  ⟨acts, (acts.length : Int) - 1, acts.length != 0, false, 0⟩

/-- One valid scalar overwrite: a single-segment nonempty key holding a
primitive, overwritten by a strictly different primitive, with undefined
excluded on both sides (an undefined old value would make the undo closure
call unset instead of set). -/
def validStep (ds : List (String × Value)) (k : String) (v : JVal) : Prop :=
  splitPath k = [k] ∧ k ≠ "" ∧
  match v, lookupV ds k with
  | .prim p, some (.prim q) => p ≠ q ∧ p ≠ .undef ∧ q ≠ .undef
  | _, _ => False

/-- A sequence of scalar overwrites, each valid against the data as left by
the previous ones. -/
def ValidSeq : List (String × Value) → List (String × JVal) → Prop
  | _, [] => True
  | ds, (k, v) :: rest => validStep ds k v ∧ ValidSeq (putV ds k (rawJToValue v)) rest

/-- The data after a run of scalar overwrites. -/
def applyUpdates (ds : List (String × Value)) (us : List (String × JVal)) :
    List (String × Value) :=
  us.foldl (fun ds kv => putV ds kv.1 (rawJToValue kv.2)) ds

/-- The chain invariant tying the recorded actions to the tree states they
connect: each recorded action is a scalar overwrite of the data whose undo
closure rewrites the previous primitive and whose redo closure rewrites the
new one. -/
inductive UChain (np : String) (ks : List String) :
    List (String × Value) → List (HAct RAction) → List (String × Value) → Prop
  | nil (ds : List (String × Value)) : UChain np ks ds [] ds
  | cons (ds ds'' : List (String × Value)) (k : String) (p q : Prim)
      (acts : List (HAct RAction))
      (hsplit : splitPath k = [k]) (hk : k ≠ "")
      (hlook : lookupV ds k = some (.prim q)) (hpq : p ≠ q)
      (tail : UChain np ks (putV ds k (.prim p)) acts ds'') :
      UChain np ks ds
        ({ name := k, combine := false,
           undo := some (.rset k (.prim q)),
           redo := some (.rset k (.prim p)) } :: acts) ds''

end Obs

namespace Obs

theorem mkHist_truncate (acts : List (HAct RAction)) :
    (mkHist acts).truncate = mkHist acts := by
  unfold HistoryState.truncate mkHist
  simp

theorem mkHist_add (acts : List (HAct RAction)) (a : HAct RAction)
    (hn : a.name ≠ "") (hu : a.undo.isNone = false) (hr : a.redo.isNone = false)
    (hc : a.combine = false) :
    (mkHist acts).add a = (mkHist (acts ++ [a]), true) := by
  rw [add_valid_eq _ a hn hu hr, mkHist_truncate]
  by_cases he : acts = []
  · subst he
    rw [pushAction_none]
    · simp [mkHist]
    · unfold HistoryState.currentAction mkHist
      rw [dif_neg]
      simp
  · have hlen : 0 < acts.length := List.length_pos.mpr he
    have hlt : ((mkHist acts).cursor).toNat < acts.length := by
      show ((acts.length : Int) - 1).toNat < acts.length
      omega
    have hcond : 0 ≤ (mkHist acts).cursor ∧
        ((mkHist acts).cursor).toNat < (mkHist acts).actions.length := by
      refine ⟨?_, hlt⟩
      show (0 : Int) ≤ (acts.length : Int) - 1
      omega
    have hco : (mkHist acts).currentAction =
        some (acts.get ⟨((acts.length : Int) - 1).toNat, hlt⟩) := by
      unfold HistoryState.currentAction
      rw [dif_pos hcond]
      rfl
    rw [pushAction_nocombine _ a _ hco (by simp [hc])]
    simp [mkHist]

end Obs

namespace Obs

set_option maxHeartbeats 1000000 in
theorem docSet_scalar (np : String) (ks : List String)
    (ds : List (String × Value)) (k : String) (p q : Prim)
    (acts0 : List (HAct RAction))
    (hsplit : splitPath k = [k]) (hk : k ≠ "")
    (hlook : lookupV ds k = some (.prim q)) (hpq : p ≠ q)
    (hp : p ≠ .undef) (hq : q ≠ .undef) :
    docSet ⟨.node np ks ds, mkHist acts0, true⟩ k (.prim p) =
      .ok ⟨.node np ks (putV ds k (.prim p)),
           mkHist (acts0 ++
             [{ name := k, combine := false,
                undo := some (.rset k (.prim q)),
                redo := some (.rset k (.prim p)) }]), true⟩ := by
  have hbeq : (q == p) = false := by
    simp only [beq_eq_false_iff_ne, ne_eq]
    exact fun h => hpq (h.symm)
  have hqj : (JVal.prim q) ≠ .prim .undef := by simp [hq]
  have hpj : (JVal.prim p) ≠ .prim .undef := by simp [hp]
  unfold docSet
  simp only [Observer.set, setTop, hsplit, setGo_single,
    setFinal_prim_present [] np ks k p false false false hlook,
    hbeq, Bool.false_and, Bool.false_eq_true, if_false, Except.map,
    emitPair, recordEvents, Bool.and_true, Bool.and_false, Bool.not_false,
    Bool.true_and, if_true, if_false]
  rw [show actionOfEvent ⟨true, k, .set, .prim p, .prim q, .undefined, false, false⟩ =
      { name := k, combine := false,
        undo := some (.rset k (.prim q)),
        redo := some (.rset k (.prim p)) } from by
    simp [actionOfEvent, undoRA, redoRA, hqj, hpj]]
  exact congrArg Except.ok (by
    rw [mkHist_add acts0
      ⟨k, false, some (.rset k (.prim q)), some (.rset k (.prim p))⟩
      hk rfl rfl rfl])

end Obs

namespace Obs

theorem currentAction_at {α : Type} (front : List (HAct α)) (a : HAct α)
    (tail : List (HAct α)) (u r : Bool) (e : Nat) :
    HistoryState.currentAction ⟨front ++ a :: tail, (front.length : Int), u, r, e⟩ =
      some a := by
  have hlen : ((front.length : Int)).toNat < (front ++ a :: tail).length := by
    simp [List.length_append]
  have hcond : (0 : Int) ≤ (front.length : Int) ∧
      ((front.length : Int)).toNat < (front ++ a :: tail).length :=
    ⟨Int.natCast_nonneg _, hlen⟩
  unfold HistoryState.currentAction
  rw [dif_pos hcond]
  congr 1
  rw [List.get_eq_getElem]
  have ht : ((front.length : Int)).toNat = front.length := Int.toNat_natCast _
  simp only [ht, List.getElem_append_right (le_refl front.length)]
  simp

end Obs

namespace Obs

theorem iterDoc_succ_end (f : Doc → Doc) (n : Nat) (d : Doc) :
    iterDoc f (n + 1) d = f (iterDoc f n d) := by
  induction n generalizing d with
  | zero => rfl
  | succ m ih =>
    show iterDoc f (m + 1) (f d) = f (iterDoc f (m + 1) d)
    rw [ih (f d)]
    rfl

set_option maxHeartbeats 1000000 in
theorem set_overwrite (np : String) (ks : List String)
    (ds : List (String × Value)) (k : String) (pOld pNew : Prim)
    (hsplit : splitPath k = [k])
    (hlook : lookupV ds k = some (.prim pOld))
    (hne : pOld ≠ pNew) :
    Observer.set [] (.node np ks ds) k (.prim pNew) false false false =
      .ok (.node np ks (putV ds k (.prim pNew)), true,
           emitPair k .set (.prim pNew) (.prim pOld) .undefined false false) := by
  have hbeq : (pOld == pNew) = false := beq_eq_false_iff_ne.mpr hne
  simp only [Observer.set, setTop, hsplit, setGo_single,
    setFinal_prim_present [] np ks k pNew false false false hlook,
    hbeq, Bool.false_and, Bool.false_eq_true, if_false]

set_option maxHeartbeats 1000000 in
theorem docUndo_step (np : String) (ks : List String)
    (ds : List (String × Value)) (k : String) (p q : Prim)
    (front tail : List (HAct RAction)) (flagR en : Bool)
    (hsplit : splitPath k = [k])
    (hlook : lookupV ds k = some (.prim q)) (hpq : p ≠ q) :
    docUndo ⟨.node np ks (putV ds k (.prim p)),
      ⟨front ++ ({ name := k, combine := false,
                   undo := some (.rset k (.prim q)),
                   redo := some (.rset k (.prim p)) } :: tail),
       (front.length : Int), true, flagR, 0⟩, en⟩ =
      ⟨.node np ks ds,
       ⟨front ++ ({ name := k, combine := false,
                    undo := some (.rset k (.prim q)),
                    redo := some (.rset k (.prim p)) } :: tail),
        (front.length : Int) - 1, (front.length != 0), true, 0⟩, en⟩ := by
  have hset : Observer.set [] (.node np ks (putV ds k (.prim p))) k (.prim q)
      false false false =
      .ok (.node np ks (putV (putV ds k (.prim p)) k (.prim q)), true,
           emitPair k .set (.prim q) (.prim p) .undefined false false) :=
    set_overwrite np ks (putV ds k (.prim p)) k p q hsplit
      (lookupV_putV_self ds k (.prim p)) hpq
  unfold docUndo
  rw [if_pos (by simp [HistoryState.canUndo])]
  rw [currentAction_at]
  simp only [execRA, hset, Except.map, putV_putV, putV_self hlook]
  unfold HistoryState.undoBegin
  rw [if_pos (by simp [HistoryState.canUndo])]
  unfold HistoryState.finishExec
  have hflag : (if (front.length : Int) - 1 < 0 then false else true) =
      (front.length != 0) := by
    by_cases hf : front.length = 0
    · simp [hf]
    · have h1 : ¬((front.length : Int) - 1 < 0) := by omega
      simp [h1, hf]
  simp [hflag]

end Obs

namespace Obs

theorem undoAll (np : String) (ks : List String)
    {acts : List (HAct RAction)} {ds ds'' : List (String × Value)}
    (h : UChain np ks ds acts ds'') :
    ∀ (front : List (HAct RAction)) (flagR en : Bool), acts ≠ [] →
    iterDoc docUndo acts.length
      ⟨.node np ks ds'',
       ⟨front ++ acts, ((front ++ acts).length : Int) - 1,
        ((front ++ acts).length != 0), flagR, 0⟩, en⟩ =
      ⟨.node np ks ds,
       ⟨front ++ acts, (front.length : Int) - 1, (front.length != 0), true,
        0⟩, en⟩ := by
  induction h with
  | nil ds0 =>
    intro front flagR en hne
    exact absurd rfl hne
  | cons ds0 ds2 k p q tail hsplit hk hlook hpq tailchain ih =>
    intro front flagR en _
    by_cases ht : tail = []
    · subst ht
      have hds2 : ds2 = putV ds0 k (.prim p) := by
        cases tailchain
        rfl
      subst hds2
      have hcur : ((front ++
          [({ name := k, combine := false,
              undo := some (RAction.rset k (.prim q)),
              redo := some (RAction.rset k (.prim p)) } : HAct RAction)]).length : Int) - 1 =
          (front.length : Int) := by
        simp
      have hflag : ((front ++
          [({ name := k, combine := false,
              undo := some (RAction.rset k (.prim q)),
              redo := some (RAction.rset k (.prim p)) } : HAct RAction)]).length != 0) = true := by
        simp
      show iterDoc docUndo 1 _ = _
      rw [iterDoc, iterDoc]
      rw [hcur, hflag]
      exact docUndo_step np ks ds0 k p q front [] flagR en hsplit hlook hpq
    · show iterDoc docUndo (tail.length + 1) _ = _
      rw [iterDoc_succ_end]
      have hassoc : ∀ z : HAct RAction, front ++ (z :: tail) = (front ++ [z]) ++ tail := by
        simp
      rw [hassoc]
      have hih := ih (front ++
        [({ name := k, combine := false,
            undo := some (RAction.rset k (.prim q)),
            redo := some (RAction.rset k (.prim p)) } : HAct RAction)]) flagR en ht
      rw [hih]
      have hlen2 : ((front ++
          [({ name := k, combine := false,
              undo := some (RAction.rset k (.prim q)),
              redo := some (RAction.rset k (.prim p)) } : HAct RAction)]).length : Int) - 1 =
          (front.length : Int) := by simp
      have hflag2 : ((front ++
          [({ name := k, combine := false,
              undo := some (RAction.rset k (.prim q)),
              redo := some (RAction.rset k (.prim p)) } : HAct RAction)]).length != 0) = true := by
        simp
      rw [hlen2, hflag2]
      rw [← hassoc]
      rw [docUndo_step np ks ds0 k p q front tail true en hsplit hlook hpq]

end Obs

namespace Obs

set_option maxHeartbeats 1000000 in
theorem docRedo_step (np : String) (ks : List String)
    (ds : List (String × Value)) (k : String) (p q : Prim)
    (a : HAct RAction) (front tail : List (HAct RAction)) (flagU en : Bool)
    (hsplit : splitPath k = [k])
    (hlook : lookupV ds k = some (.prim q)) (hpq : p ≠ q)
    (ha : a.redo = some (.rset k (.prim p))) :
    docRedo ⟨.node np ks ds,
      ⟨front ++ a :: tail, (front.length : Int) - 1, flagU, true, 0⟩, en⟩ =
      ⟨.node np ks (putV ds k (.prim p)),
       ⟨front ++ a :: tail, (front.length : Int), true, (tail.length != 0),
        0⟩, en⟩ := by
  have hset : Observer.set [] (.node np ks ds) k (.prim p)
      false false false =
      .ok (.node np ks (putV ds k (.prim p)), true,
           emitPair k .set (.prim p) (.prim q) .undefined false false) :=
    set_overwrite np ks ds k q p hsplit hlook (Ne.symm hpq)
  unfold docRedo
  rw [if_pos (by simp [HistoryState.canRedo])]
  unfold HistoryState.redoBegin
  rw [if_pos (by simp [HistoryState.canRedo])]
  have hc : (front.length : Int) - 1 + 1 = (front.length : Int) := by omega
  simp only [hc]
  rw [currentAction_at]
  simp only [ha]
  simp only [execRA, hset, Except.map]
  unfold HistoryState.finishExec
  have hLval : (front ++ a :: tail).length = front.length + tail.length + 1 := by
    simp [List.length_append]
    omega
  have hflag : (if (front.length : Int) =
      ((front ++ a :: tail).length : Int) - 1 then false else true) =
      (tail.length != 0) := by
    by_cases htl : tail.length = 0
    · rw [if_pos (by omega)]
      simp [htl]
    · rw [if_neg (by omega)]
      simp [htl]
  simp [hflag]
  by_cases htl : tail.length = 0
  · rw [htl]
    simp
  · rw [decide_eq_false (by omega)]
    simp [htl]

end Obs

namespace Obs

theorem redoAll (np : String) (ks : List String)
    {acts : List (HAct RAction)} {ds ds'' : List (String × Value)}
    (h : UChain np ks ds acts ds'') :
    ∀ (front : List (HAct RAction)) (flagU en : Bool), acts ≠ [] →
    iterDoc docRedo acts.length
      ⟨.node np ks ds,
       ⟨front ++ acts, (front.length : Int) - 1, flagU, true, 0⟩, en⟩ =
      ⟨.node np ks ds'',
       ⟨front ++ acts, ((front ++ acts).length : Int) - 1, true, false, 0⟩,
       en⟩ := by
  induction h with
  | nil ds0 =>
    intro _ _ _ hne
    exact absurd rfl hne
  | cons ds0 ds2 k p q tail hsplit hk hlook hpq tailchain ih =>
    intro front flagU en _
    show iterDoc docRedo (tail.length + 1) _ = _
    simp only [iterDoc]
    rw [docRedo_step np ks ds0 k p q _ front tail flagU en hsplit hlook hpq rfl]
    by_cases ht : tail = []
    · subst ht
      have hds2 : ds2 = putV ds0 k (.prim p) := by
        cases tailchain
        rfl
      subst hds2
      simp only [List.length_nil, iterDoc]
      simp [List.length_append]
    · have hlt : tail.length ≠ 0 := fun hz => ht (List.length_eq_zero.mp hz)
      have hflagt : (tail.length != 0) = true := by simp [hlt]
      rw [hflagt]
      have hassoc : front ++ (⟨k, false, some (RAction.rset k (.prim q)),
          some (RAction.rset k (.prim p))⟩ : HAct RAction) :: tail =
          (front ++ [(⟨k, false, some (RAction.rset k (.prim q)),
          some (RAction.rset k (.prim p))⟩ : HAct RAction)]) ++ tail := by
        simp
      rw [hassoc]
      have hcur : (front.length : Int) =
          (((front ++ [(⟨k, false, some (RAction.rset k (.prim q)),
          some (RAction.rset k (.prim p))⟩ : HAct RAction)]).length : Int) - 1) := by
        simp
      rw [hcur]
      rw [ih (front ++ [(⟨k, false, some (RAction.rset k (.prim q)),
          some (RAction.rset k (.prim p))⟩ : HAct RAction)]) true en ht]

end Obs

namespace Obs

theorem applySets_spec (np : String) (ks : List String) :
    ∀ (us : List (String × JVal)) (ds : List (String × Value))
      (acts0 : List (HAct RAction)),
      ValidSeq ds us →
      ∃ acts : List (HAct RAction),
        applySets ⟨.node np ks ds, mkHist acts0, true⟩ us =
          .ok ⟨.node np ks (applyUpdates ds us), mkHist (acts0 ++ acts),
               true⟩ ∧
        UChain np ks ds acts (applyUpdates ds us) ∧
        acts.length = us.length := by
  intro us
  induction us with
  | nil =>
    intro ds acts0 _
    refine ⟨[], ?_, UChain.nil ds, rfl⟩
    simp [applySets, applyUpdates]
  | cons u rest ih =>
    intro ds acts0 hval
    obtain ⟨k, v⟩ := u
    obtain ⟨hstep, hrest⟩ := hval
    obtain ⟨hsplit, hk, hm⟩ := hstep
    cases v with
    | arr xs => exact absurd hm (by simp [validStep] at hm ⊢)
    | obj kvs => exact absurd hm (by simp [validStep] at hm ⊢)
    | prim p =>
      cases hl : lookupV ds k with
      | none =>
        rw [hl] at hm
        exact absurd hm (by simp)
      | some w =>
        rw [hl] at hm
        cases w with
        | arr xs => exact absurd hm (by simp)
        | node a b c => exact absurd hm (by simp)
        | pobj kv => exact absurd hm (by simp)
        | prim q =>
          obtain ⟨hpq, hp, hq⟩ := hm
          have hstep := docSet_scalar np ks ds k p q acts0 hsplit hk hl
            hpq hp hq
          have hraw : rawJToValue (.prim p) = Value.prim p := by
            rw [rawJToValue]
          rw [hraw] at hrest
          obtain ⟨acts, heq, hchain, hlen⟩ :=
            ih (putV ds k (.prim p))
              (acts0 ++ [(⟨k, false, some (RAction.rset k (.prim q)),
                some (RAction.rset k (.prim p))⟩ : HAct RAction)]) hrest
          refine ⟨(⟨k, false, some (RAction.rset k (.prim q)),
            some (RAction.rset k (.prim p))⟩ : HAct RAction) :: acts, ?_, ?_, ?_⟩
          · show ((docSet ⟨.node np ks ds, mkHist acts0, true⟩ k
              (.prim p)).bind fun d' => applySets d' rest) = _
            rw [hstep]
            show applySets _ rest = _
            rw [heq]
            have hupd : applyUpdates ds ((k, JVal.prim p) :: rest) =
                applyUpdates (putV ds k (.prim p)) rest := by
              simp [applyUpdates, List.foldl_cons, hraw]
            rw [hupd]
            simp [List.append_assoc]
          · have hupd : applyUpdates ds ((k, JVal.prim p) :: rest) =
                applyUpdates (putV ds k (.prim p)) rest := by
              simp [applyUpdates, List.foldl_cons, hraw]
            rw [hupd]
            exact UChain.cons ds _ k p q acts hsplit hk hl hpq hchain
          · simp [hlen]

end Obs

namespace Obs

/-- C1 (amended): with a HistoryStack bound to the tree and recording
enabled, for every sequence of N valid scalar overwrites (single-segment
keys holding primitives, overwritten by strictly different defined
primitives), N awaited undo calls restore the tree exactly to its
pre-mutation state, and N subsequent awaited redo calls restore the state
that held after the N sets.  For general sets the claim fails: setting a
fresh key records null as the old value, so its undo leaves the key set to
null instead of removing it (see the counterexample). -/
theorem c1_undo_redo_scalar (np : String) (ks : List String)
    (ds : List (String × Value)) (us : List (String × JVal))
    (hval : ValidSeq ds us) :
    ∃ dN : Doc,
      applySets ⟨.node np ks ds, .init RAction, true⟩ us = .ok dN ∧
      dN.tree = .node np ks (applyUpdates ds us) ∧
      (iterDoc docUndo us.length dN).tree = .node np ks ds ∧
      (iterDoc docRedo us.length (iterDoc docUndo us.length dN)).tree =
        dN.tree := by
  obtain ⟨acts, heq, hchain, hlen⟩ := applySets_spec np ks us ds [] hval
  rw [List.nil_append] at heq
  have hinit : mkHist [] = HistoryState.init RAction := by rfl
  rw [hinit] at heq
  cases us with
  | nil =>
    have hacts : acts = [] := List.length_eq_zero.mp hlen
    subst hacts
    exact ⟨⟨.node np ks ds, mkHist [], true⟩, heq, rfl, rfl, rfl⟩
  | cons u us' =>
    have hne : acts ≠ [] := by
      intro hz
      rw [hz] at hlen
      simp at hlen
    have hu2 : iterDoc docUndo acts.length
        (⟨.node np ks (applyUpdates ds (u :: us')), mkHist acts, true⟩ : Doc) =
        ⟨.node np ks ds, ⟨acts, -1, false, true, 0⟩, true⟩ :=
      undoAll np ks hchain [] false true hne
    have hr2 : iterDoc docRedo acts.length
        (⟨.node np ks ds, ⟨acts, -1, false, true, 0⟩, true⟩ : Doc) =
        ⟨.node np ks (applyUpdates ds (u :: us')),
         ⟨acts, (acts.length : Int) - 1, true, false, 0⟩, true⟩ :=
      redoAll np ks hchain [] false true hne
    refine ⟨⟨.node np ks (applyUpdates ds (u :: us')), mkHist acts, true⟩,
      heq, rfl, ?_, ?_⟩
    · rw [← hlen, hu2]
    · rw [← hlen, hu2, hr2]

end Obs

namespace Obs

set_option maxHeartbeats 1000000 in
/-- C1 (counterexample): one effective set of a fresh key followed by one
awaited undo does not restore the pre-mutation serialized state: the set
event of a new key records null (not undefined) as its old value, so the
undo closure sets the key to null instead of unsetting it, and the tree
serializes to {a: null} instead of {}. -/
theorem c1_counterexample :
    docSet ⟨.node "" [] [], mkHist [], true⟩ "a" (.prim (.num 5)) =
      .ok ⟨.node "" ["a"] [("a", .prim (.num 5))],
           mkHist [(⟨"a", false, some (.rset "a" (.prim .null)),
             some (.rset "a" (.prim (.num 5)))⟩ : HAct RAction)], true⟩ ∧
    jsonV (docUndo ⟨.node "" ["a"] [("a", .prim (.num 5))],
           mkHist [(⟨"a", false, some (.rset "a" (.prim .null)),
             some (.rset "a" (.prim (.num 5)))⟩ : HAct RAction)], true⟩).tree =
      .obj [("a", .prim .null)] ∧
    jsonV (Value.node "" [] []) = .obj [] ∧
    (JVal.obj [("a", JVal.prim .null)]) ≠ .obj [] := by
  refine ⟨?_, ?_, ?_, by simp⟩
  · unfold docSet
    rw [show Observer.set [] (.node "" [] []) "a" (.prim (.num 5))
        false false false =
        .ok (.node "" ["a"] [("a", Value.prim (.num 5))], true,
             emitPair "a" .set (.prim (.num 5)) (.prim .null) .undefined
               false false) from by
      simp [Observer.set, setTop, show splitPath "a" = ["a"] from rfl,
        setGo_single, setFinal, lookupV, putV, rawJToValue, JVal.typeofObject,
        Except.instMonad, Except.bind]]
    rfl
  · have hex : execRA (.node "" ["a"] [("a", Value.prim (.num 5))])
        (.rset "a" (.prim .null)) =
        .ok (.node "" ["a"] [("a", Value.prim .null)]) := by
      show (Observer.set [] _ "a" (.prim .null) false false false).map _ = _
      rw [set_overwrite "" ["a"] [("a", Value.prim (.num 5))] "a"
        (.num 5) .null rfl rfl (by decide)]
      rfl
    simp [docUndo, HistoryState.canUndo, HistoryState.currentAction, mkHist,
      hex, jsonV, jsonKeys, lookupV]
  · simp [jsonV, jsonKeys]

/-- C1 (witness): the amended theorem on the tree {a: 1} with the single
overwrite a := 2: one undo restores {a: 1}, one redo restores {a: 2}. -/
theorem c1_undo_redo_scalar_witness :
    ValidSeq [("a", Value.prim (.num 1))] [("a", JVal.prim (.num 2))] ∧
    ∃ dN : Doc,
      applySets ⟨.node "" ["a"] [("a", Value.prim (.num 1))],
        .init RAction, true⟩ [("a", JVal.prim (.num 2))] = .ok dN ∧
      dN.tree = .node "" ["a"]
        (applyUpdates [("a", Value.prim (.num 1))]
          [("a", JVal.prim (.num 2))]) ∧
      (iterDoc docUndo 1 dN).tree = .node "" ["a"]
        [("a", Value.prim (.num 1))] ∧
      (iterDoc docRedo 1 (iterDoc docUndo 1 dN)).tree = dN.tree := by
  have hval : ValidSeq [("a", Value.prim (.num 1))]
      [("a", JVal.prim (.num 2))] := by
    refine ⟨⟨rfl, by decide, ?_⟩, trivial⟩
    exact ⟨by decide, by decide, by decide⟩
  exact ⟨hval, c1_undo_redo_scalar "" ["a"] [("a", Value.prim (.num 1))]
    [("a", JVal.prim (.num 2))] hval⟩

end Obs

namespace Obs

theorem putV_absent {cd : List (String × Value)} {k : String} (v : Value)
    (h : lookupV cd k = none) : putV cd k v = cd ++ [(k, v)] := by
  induction cd with
  | nil => simp [putV]
  | cons kv rest ih =>
    obtain ⟨k0, w0⟩ := kv
    rw [lookupV] at h
    by_cases hk : k0 = k
    · simp [hk] at h
    · simp [hk] at h
      simp [putV, hk, ih h]

theorem lookupV_append_left_none {cd : List (String × Value)} {k : String}
    (l : List (String × Value)) (h : lookupV cd k = none) :
    lookupV (cd ++ l) k = lookupV l k := by
  induction cd with
  | nil => simp
  | cons kv rest ih =>
    obtain ⟨k0, w0⟩ := kv
    rw [lookupV] at h
    by_cases hk : k0 = k
    · simp [hk] at h
    · simp [hk] at h
      simp [lookupV, hk, ih h]

theorem splitPathAux_nodot : ∀ (cs acc : List Char),
    (∀ c ∈ cs, c ≠ '.') →
    splitPathAux cs acc = [String.mk (acc.reverse ++ cs)] := by
  intro cs
  induction cs with
  | nil =>
    intro acc _
    simp [splitPathAux]
  | cons c rest ih =>
    intro acc h
    rw [splitPathAux]
    rw [if_neg (h c (by simp))]
    rw [ih (c :: acc) (fun x hx => h x (by simp [hx]))]
    simp

theorem splitPath_nodot {k : String}
    (h : ∀ c ∈ k.data, c ≠ '.') : splitPath k = [k] := by
  rw [splitPath, splitPathAux_nodot k.data [] h]
  simp

theorem kvsOfJ_obj (kvs : List (String × JVal)) : kvsOfJ (.obj kvs) = kvs := by
  rw [kvsOfJ]

end Obs

namespace Obs

mutual

/-- Well-formed construction data for the round trip: objects carry
duplicate-free, dot-free keys and no undefined members anywhere. -/
def wfJ : JVal → Bool
  | .prim p => p != .undef
  | .arr xs => wfL xs
  | .obj kvs => wfKv kvs

def wfL : List JVal → Bool
  | [] => true
  | x :: rest => wfJ x && wfL rest

def wfKv : List (String × JVal) → Bool
  | [] => true
  | (k, v) :: rest =>
    (k.data.all fun c => c != '.') && !((rest.map Prod.fst).contains k) &&
      wfJ v && wfKv rest

end

theorem rawJToValue_arr (xs : List JVal) :
    rawJToValue (.arr xs) = .arr (xs.map rawJToValue) := by
  rw [rawJToValue]
  congr 1
  exact List.attach_map_coe xs rawJToValue

theorem rawJToValue_obj (kvs : List (String × JVal)) :
    rawJToValue (.obj kvs) =
      .pobj (kvs.map fun kv => (kv.1, rawJToValue kv.2)) := by
  rw [rawJToValue]
  congr 1
  exact List.attach_map_coe kvs fun kv => (kv.1, rawJToValue kv.2)

end Obs

namespace Obs

theorem rawVToJ_rawJToValue : ∀ (n : Nat) (j : JVal), sizeOf j ≤ n →
    rawVToJ (rawJToValue j) = j := by
  intro n
  induction n with
  | zero =>
    intro j h
    cases j <;> simp at h
  | succ m ih =>
    intro j hle
    cases j with
    | prim p => rw [rawJToValue, rawVToJ]
    | arr xs =>
      rw [rawJToValue_arr, rawVToJ]
      congr 1
      have hel : ∀ x ∈ xs, sizeOf x ≤ m := by
        intro x hx
        have := List.sizeOf_lt_of_mem hx
        simp only [JVal.arr.sizeOf_spec] at hle
        omega
      clear hle
      induction xs with
      | nil => rw [List.map_nil, rawVToJL]
      | cons x rest ihx =>
        rw [List.map_cons, rawVToJL]
        rw [ih x (hel x (by simp))]
        rw [ihx (fun y hy => hel y (by simp [hy]))]
    | obj kvs =>
      rw [rawJToValue_obj, rawVToJ]
      congr 1
      have hel : ∀ kv ∈ kvs, sizeOf kv.2 ≤ m := by
        intro kv hkv
        have h1 := List.sizeOf_lt_of_mem hkv
        have h2 : sizeOf kv.2 < sizeOf kv := by
          obtain ⟨a, b⟩ := kv
          simp only [Prod.mk.sizeOf_spec]
          omega
        simp only [JVal.obj.sizeOf_spec] at hle
        omega
      clear hle
      induction kvs with
      | nil => rw [List.map_nil, rawVToJKv]
      | cons kv rest ihx =>
        obtain ⟨k, v⟩ := kv
        rw [List.map_cons, rawVToJKv]
        rw [ih v (hel (k, v) (by simp))]
        rw [ihx (fun y hy => hel y (by simp [hy]))]

theorem jsonV_rawJToValue : ∀ (n : Nat) (j : JVal), sizeOf j ≤ n →
    jsonV (rawJToValue j) = j := by
  intro n
  induction n with
  | zero =>
    intro j h
    cases j <;> simp at h
  | succ m ih =>
    intro j hle
    cases j with
    | prim p => rw [rawJToValue, jsonV]
    | arr xs =>
      rw [rawJToValue_arr, jsonV]
      congr 1
      have hel : ∀ x ∈ xs, sizeOf x ≤ m := by
        intro x hx
        have := List.sizeOf_lt_of_mem hx
        simp only [JVal.arr.sizeOf_spec] at hle
        omega
      clear hle
      induction xs with
      | nil => rw [List.map_nil, jsonL]
      | cons x rest ihx =>
        rw [List.map_cons, jsonL]
        rw [ih x (hel x (by simp))]
        rw [ihx (fun y hy => hel y (by simp [hy]))]
    | obj kvs =>
      rw [rawJToValue_obj, jsonV]
      congr 1
      have hel : ∀ kv ∈ kvs, sizeOf kv.2 ≤ m := by
        intro kv hkv
        have h1 := List.sizeOf_lt_of_mem hkv
        have h2 : sizeOf kv.2 < sizeOf kv := by
          obtain ⟨a, b⟩ := kv
          simp only [Prod.mk.sizeOf_spec]
          omega
        simp only [JVal.obj.sizeOf_spec] at hle
        omega
      clear hle
      induction kvs with
      | nil => rw [List.map_nil, rawVToJKv]
      | cons kv rest ihx =>
        obtain ⟨k, v⟩ := kv
        rw [List.map_cons, rawVToJKv]
        have hs : sizeOf v ≤ m := hel (k, v) (by simp)
        rw [show rawVToJ (rawJToValue v) = v from
          rawVToJ_rawJToValue m v hs]
        rw [ihx (fun y hy => hel y (by simp [hy]))]

end Obs

namespace Obs

theorem jsonKeys_cons_some {data : List (String × Value)} {k : String}
    {w : Value} (ks : List String) (h : lookupV data k = some w) :
    jsonKeys (k :: ks) data = (k, jsonV w) :: jsonKeys ks data := by
  rw [jsonKeys]
  split
  · rename_i heq
    rw [heq] at h
    cases h
  · rename_i v heq
    rw [heq] at h
    cases h
    rfl

theorem jsStrictOptVJ_none_prim {p : Prim} (h : p ≠ .undef) :
    jsStrictOptVJ none (.prim p) = false := by
  cases p <;> simp [jsStrictOptVJ] at h ⊢

theorem lookupV_cons_self (k : String) (w : Value)
    (rest : List (String × Value)) :
    lookupV ((k, w) :: rest) k = some w := by
  simp [lookupV]

theorem lookupV_cons_ne {k k0 : String} (w : Value)
    (rest : List (String × Value)) (h : k0 ≠ k) :
    lookupV ((k0, w) :: rest) k = lookupV rest k := by
  simp [lookupV, h]

end Obs

namespace Obs

/-- Round-trip specification of the Observer constructor at one measure
bound: building from well-formed object data succeeds and serializes back
to the data. -/
def BuildSpec (n : Nat) : Prop :=
  ∀ kvs : List (String × JVal), 2 * jsizeKv kvs + 1 ≤ n → wfKv kvs = true →
    ∃ t, buildRoot (.obj kvs) = .ok t ∧ jsonV t = .obj kvs

/-- Round-trip specification of _prepare: a fresh well-formed member is
stored under the key, the key is appended to _keys, and the stored value
serializes to the prepared value. -/
def PrepSpec (n : Nat) : Prop :=
  ∀ (v : JVal) (tp : String) (tkeys : List String)
    (tdata : List (String × Value)) (key : String) (s r : Bool),
    2 * jsize v ≤ n → wfJ v = true → lookupV tdata key = none →
    ∃ w evs, prepare (.node tp tkeys tdata) key v s r =
      .ok (.node tp (tkeys ++ [key]) (putV tdata key w), evs) ∧ jsonV w = v

/-- Round-trip specification of the element loop of the array branch. -/
def ArrSpec (n : Nat) : Prop :=
  ∀ (xs : List JVal) (path : String) (r : Bool) (i : Nat),
    2 * jsizeL xs ≤ n → wfL xs = true →
    ∃ vs evs, prepArrLoop path r i xs = .ok (vs, evs) ∧ jsonL vs = xs

/-- Round-trip specification of the member loop of the object branch. -/
def ObjSpec (n : Nat) : Prop :=
  ∀ (kvs : List (String × JVal)) (path : String) (r : Bool) (cp : String)
    (ck : List String) (cd : List (String × Value)),
    2 * jsizeKv kvs ≤ n → wfKv kvs = true →
    (∀ k ∈ kvs.map Prod.fst, lookupV cd k = none) →
    ∃ ws evs, prepObjLoop path r (.node cp ck cd) kvs =
      .ok (.node cp (ck ++ kvs.map Prod.fst) (cd ++ ws), evs) ∧
      jsonKeys (kvs.map Prod.fst) (cd ++ ws) = kvs

/-- Round-trip specification of the member loop of patch on fresh keys. -/
def PatchSpec (n : Nat) : Prop :=
  ∀ (kvs : List (String × JVal)) (cp : String)
    (ck : List String) (cd : List (String × Value)),
    2 * jsizeKv kvs ≤ n → wfKv kvs = true →
    (∀ k ∈ kvs.map Prod.fst, lookupV cd k = none) →
    ∃ ws evs, patchLoop [] (.node cp ck cd) kvs =
      .ok (.node cp (ck ++ kvs.map Prod.fst) (cd ++ ws), evs) ∧
      jsonKeys (kvs.map Prod.fst) (cd ++ ws) = kvs

theorem wfKv_cons {ki : String} {vi : JVal} {rest : List (String × JVal)}
    (h : wfKv ((ki, vi) :: rest) = true) :
    (∀ c ∈ ki.data, c ≠ '.') ∧ ki ∉ rest.map Prod.fst ∧ wfJ vi = true ∧
      wfKv rest = true := by
  rw [wfKv] at h
  simp only [Bool.and_eq_true, Bool.not_eq_true'] at h
  obtain ⟨⟨⟨hdot, hmem⟩, hv⟩, hrest⟩ := h
  refine ⟨?_, ?_, hv, hrest⟩
  · intro c hc
    have := List.all_eq_true.mp hdot c hc
    simpa using this
  · intro hin
    have h2 : (List.map Prod.fst rest).elem ki = true := List.elem_iff.mpr hin
    rw [show (List.map Prod.fst rest).contains ki =
        (List.map Prod.fst rest).elem ki from rfl] at hmem
    rw [h2] at hmem
    cases hmem

end Obs

namespace Obs

theorem jsize_pos (j : JVal) : 1 ≤ jsize j := by
  cases j <;> simp [jsize]

set_option maxHeartbeats 1000000 in
theorem arrSpec_step (m : Nat) (ihB : BuildSpec m) (ihA : ArrSpec m) :
    ArrSpec (m + 1) := by
  intro xs path r i hb hwf
  cases xs with
  | nil =>
    refine ⟨[], [], ?_, ?_⟩
    · rw [prepArrLoop]
    · simp only [jsonL]
  | cons e rest =>
    rw [jsizeL] at hb
    rw [wfL] at hwf
    simp only [Bool.and_eq_true] at hwf
    obtain ⟨hwfe, hwfrest⟩ := hwf
    have hje := jsize_pos e
    have hrest : 2 * jsizeL rest ≤ m := by omega
    obtain ⟨vs, evs, heqr, hjson⟩ := ihA rest path r (i + 1) hrest hwfrest
    cases e with
    | prim p =>
      refine ⟨.prim p :: vs,
        emitPair (path ++ "." ++ Nat.repr i) .set (.prim p) (.prim .null)
          .undefined r true ++ evs, ?_, ?_⟩
      · rw [prepArrLoop.eq_def]
        simp only [heqr, Except.instMonad, Except.bind]
      · simp only [jsonL, hjson, jsonV]
    | arr ys =>
      refine ⟨rawJToValue (.arr ys) :: vs, evs, ?_, ?_⟩
      · rw [prepArrLoop.eq_def]
        simp only [heqr, Except.instMonad, Except.bind]
      · simp only [jsonL, hjson,
          jsonV_rawJToValue (sizeOf (JVal.arr ys)) (JVal.arr ys) (le_refl _)]
    | obj okvs =>
      rw [wfJ] at hwfe
      rw [show jsize (JVal.obj okvs) = 1 + jsizeKv okvs from by rw [jsize]] at hb
      have hbk : 2 * jsizeKv okvs + 1 ≤ m := by omega
      obtain ⟨t, heqb, hjb⟩ := ihB okvs hbk hwfe
      refine ⟨t :: vs, evs, ?_, ?_⟩
      · rw [prepArrLoop.eq_def]
        simp only [heqb, heqr, Except.instMonad, Except.bind]
      · simp only [jsonL, hjson, hjb]

end Obs

namespace Obs

set_option maxHeartbeats 1000000 in
theorem prepSpec_step (m : Nat) (ihA : ArrSpec m) (ihO : ObjSpec m) :
    PrepSpec (m + 1) := by
  intro v tp tkeys tdata key s r hb hwf hlook
  cases v with
  | prim p =>
    refine ⟨.prim p,
      emitPair (joinPath tp key) .set (.prim p) .undefined .undefined r s, ?_, ?_⟩
    · rw [prepare.eq_def]
    · simp only [jsonV]
  | arr xs =>
    rw [jsize] at hb
    rw [wfJ] at hwf
    have hxs : 2 * jsizeL xs ≤ m := by omega
    obtain ⟨vs, evsEl, heqA, hjson⟩ := ihA xs (joinPath tp key) r 0 hxs hwf
    refine ⟨.arr vs, evsEl ++ emitPair (joinPath tp key) .set
      (jsonV (.arr vs)) (.prim .null) .undefined r s, ?_, ?_⟩
    · rw [prepare.eq_def]
      simp only [heqA, Except.instMonad, Except.bind]
    · simp only [jsonV, hjson]
  | obj kvs =>
    rw [jsize] at hb
    rw [wfJ] at hwf
    have hkv : 2 * jsizeKv kvs ≤ m := by omega
    have hdisj : ∀ k ∈ kvs.map Prod.fst,
        lookupV ([] : List (String × Value)) k = none := by
      intro k _
      rfl
    obtain ⟨ws, evs, heqO, hjson⟩ :=
      ihO kvs (joinPath tp key) r (joinPath tp key) [] [] hkv hwf hdisj
    refine ⟨.node (joinPath tp key) (kvs.map Prod.fst) ws,
      evs ++ emitPair (joinPath tp key) .set (.obj kvs) .undefined .undefined r s,
      ?_, ?_⟩
    · rw [prepare.eq_def]
      simp only [hlook, heqO, Except.instMonad, Except.bind, List.nil_append]
    · simp only [jsonV]
      exact congrArg JVal.obj hjson

end Obs

namespace Obs

set_option maxHeartbeats 1000000 in
theorem objSpec_step (m : Nat) (ihP : PrepSpec m) (ihO : ObjSpec m) :
    ObjSpec (m + 1) := by
  intro kvs path r cp ck cd hb hwf hdisj
  cases kvs with
  | nil =>
    refine ⟨[], [], ?_, ?_⟩
    · rw [prepObjLoop]
      simp
    · simp [jsonKeys]
  | cons kv rest =>
    obtain ⟨ki, vi⟩ := kv
    rw [jsizeKv] at hb
    obtain ⟨hdot, hnotin, hwfv, hwfrest⟩ := wfKv_cons hwf
    have hlookki : lookupV cd ki = none := hdisj ki (by simp)
    have hbv : 2 * jsize vi ≤ m := by omega
    have hbrest : 2 * jsizeKv rest ≤ m := by
      have := jsize_pos vi
      omega
    by_cases hto : vi.typeofObject = true
    · obtain ⟨w, evs1, heqP, hjw⟩ := ihP vi cp ck cd ki true r hbv hwfv hlookki
      rw [putV_absent w hlookki] at heqP
      have hdisj' : ∀ k ∈ rest.map Prod.fst,
          lookupV (cd ++ [(ki, w)]) k = none := by
        intro k hk
        rw [lookupV_append_left_none _ (hdisj k (by simp [hk]))]
        have hne : ki ≠ k := fun he => hnotin (he ▸ hk)
        rw [lookupV_cons_ne _ _ hne]
        rfl
      obtain ⟨ws', evs2, heqO, hjson'⟩ :=
        ihO rest path r cp (ck ++ [ki]) (cd ++ [(ki, w)]) hbrest hwfrest hdisj'
      refine ⟨(ki, w) :: ws', evs1 ++ evs2, ?_, ?_⟩
      · rw [prepObjLoop.eq_def]
        simp only [hto, if_true, heqP, heqO, Except.instMonad, Except.bind]
        simp [List.append_assoc]
      · rw [List.map_cons]
        have hlk : lookupV (cd ++ (ki, w) :: ws') ki = some w := by
          rw [lookupV_append_left_none _ hlookki, lookupV_cons_self]
        rw [jsonKeys_cons_some _ hlk, hjw]
        have hsplit2 : cd ++ (ki, w) :: ws' = (cd ++ [(ki, w)]) ++ ws' := by
          simp
        rw [hsplit2, hjson']
    · cases vi with
      | arr xs => simp [JVal.typeofObject] at hto
      | obj okvs => simp [JVal.typeofObject] at hto
      | prim p =>
        have hto' : (JVal.prim p).typeofObject = false :=
          Bool.eq_false_iff.mpr hto
        have hdisj' : ∀ k ∈ rest.map Prod.fst,
            lookupV (cd ++ [(ki, Value.prim p)]) k = none := by
          intro k hk
          rw [lookupV_append_left_none _ (hdisj k (by simp [hk]))]
          have hne : ki ≠ k := fun he => hnotin (he ▸ hk)
          rw [lookupV_cons_ne _ _ hne]
          rfl
        obtain ⟨ws', evs2, heqO, hjson'⟩ :=
          ihO rest path r cp (ck ++ [ki]) (cd ++ [(ki, Value.prim p)])
            hbrest hwfrest hdisj'
        refine ⟨(ki, Value.prim p) :: ws',
          emitPair (path ++ "." ++ ki) .set (.prim p) (.prim .null) .undefined
            r true ++ evs2, ?_, ?_⟩
        · rw [prepObjLoop.eq_def]
          simp only [hto', Bool.false_eq_true, if_false, rawJToValue,
            putV_absent _ hlookki, heqO, Except.instMonad, Except.bind]
          simp [List.append_assoc]
        · rw [List.map_cons]
          have hlk : lookupV (cd ++ (ki, Value.prim p) :: ws') ki =
              some (.prim p) := by
            rw [lookupV_append_left_none _ hlookki, lookupV_cons_self]
          rw [jsonKeys_cons_some _ hlk]
          simp only [jsonV]
          have hsplit2 : cd ++ (ki, Value.prim p) :: ws' =
              (cd ++ [(ki, Value.prim p)]) ++ ws' := by
            simp
          rw [hsplit2, hjson']

end Obs

namespace Obs

set_option maxHeartbeats 1000000 in
theorem patchSpec_step (m : Nat) (ihP : PrepSpec m) (ihC : PatchSpec m) :
    PatchSpec (m + 1) := by
  intro kvs cp ck cd hb hwf hdisj
  cases kvs with
  | nil =>
    refine ⟨[], [], ?_, ?_⟩
    · rw [patchLoop]
      simp
    · simp [jsonKeys]
  | cons kv rest =>
    obtain ⟨ki, vi⟩ := kv
    rw [jsizeKv] at hb
    obtain ⟨hdot, hnotin, hwfv, hwfrest⟩ := wfKv_cons hwf
    have hlookki : lookupV cd ki = none := hdisj ki (by simp)
    have hbv : 2 * jsize vi ≤ m := by omega
    have hbrest : 2 * jsizeKv rest ≤ m := by
      have := jsize_pos vi
      omega
    by_cases hto : vi.typeofObject = true
    · obtain ⟨w, evs1, heqP, hjw⟩ :=
        ihP vi cp ck cd ki false false hbv hwfv hlookki
      rw [putV_absent w hlookki] at heqP
      have hdisj' : ∀ k ∈ rest.map Prod.fst,
          lookupV (cd ++ [(ki, w)]) k = none := by
        intro k hk
        rw [lookupV_append_left_none _ (hdisj k (by simp [hk]))]
        have hne : ki ≠ k := fun he => hnotin (he ▸ hk)
        rw [lookupV_cons_ne _ _ hne]
        rfl
      obtain ⟨ws', evs2, heqO, hjson'⟩ :=
        ihC rest cp (ck ++ [ki]) (cd ++ [(ki, w)]) hbrest hwfrest hdisj'
      refine ⟨(ki, w) :: ws', evs1 ++ evs2, ?_, ?_⟩
      · rw [patchLoop.eq_def]
        simp only [hlookki, Option.isNone_none, hto, Bool.and_true, if_true,
          heqP, heqO, Except.instMonad, Except.bind]
        simp [List.append_assoc]
      · rw [List.map_cons]
        have hlk : lookupV (cd ++ (ki, w) :: ws') ki = some w := by
          rw [lookupV_append_left_none _ hlookki, lookupV_cons_self]
        rw [jsonKeys_cons_some _ hlk, hjw]
        have hsplit2 : cd ++ (ki, w) :: ws' = (cd ++ [(ki, w)]) ++ ws' := by
          simp
        rw [hsplit2, hjson']
    · cases vi with
      | arr xs => simp [JVal.typeofObject] at hto
      | obj okvs => simp [JVal.typeofObject] at hto
      | prim p =>
        have hto' : (JVal.prim p).typeofObject = false :=
          Bool.eq_false_iff.mpr hto
        have hpundef : p ≠ .undef := by
          rw [wfJ] at hwfv
          simpa using hwfv
        have hstrict : jsStrictOptVJ none (.prim p) = false :=
          jsStrictOptVJ_none_prim hpundef
        have hsetEq : setTop [] (.node cp ck cd) ki (.prim p)
            false false false =
            .ok (.node cp (ck ++ [ki]) (cd ++ [(ki, Value.prim p)]), true,
                 emitPair ki .set (.prim p) (.prim .null) .undefined
                   false false) := by
          simp only [setTop, splitPath_nodot hdot, setGo_single]
          rw [setFinal.eq_def]
          simp only [hlookki, hto', Bool.false_eq_true, if_false,
            rawJToValue, putV_absent _ hlookki]
        have hdisj' : ∀ k ∈ rest.map Prod.fst,
            lookupV (cd ++ [(ki, Value.prim p)]) k = none := by
          intro k hk
          rw [lookupV_append_left_none _ (hdisj k (by simp [hk]))]
          have hne : ki ≠ k := fun he => hnotin (he ▸ hk)
          rw [lookupV_cons_ne _ _ hne]
          rfl
        obtain ⟨ws', evs2, heqO, hjson'⟩ :=
          ihC rest cp (ck ++ [ki]) (cd ++ [(ki, Value.prim p)])
            hbrest hwfrest hdisj'
        refine ⟨(ki, Value.prim p) :: ws',
          emitPair ki .set (.prim p) (.prim .null) .undefined false false ++
            evs2, ?_, ?_⟩
        · rw [patchLoop.eq_def]
          simp only [hlookki, Option.isNone_none, hto', Bool.and_true,
            Bool.false_eq_true, if_false, hstrict, Bool.not_false, if_true,
            hsetEq, heqO, Except.instMonad, Except.bind]
          simp [List.append_assoc]
        · rw [List.map_cons]
          have hlk : lookupV (cd ++ (ki, Value.prim p) :: ws') ki =
              some (.prim p) := by
            rw [lookupV_append_left_none _ hlookki, lookupV_cons_self]
          rw [jsonKeys_cons_some _ hlk]
          simp only [jsonV]
          have hsplit2 : cd ++ (ki, Value.prim p) :: ws' =
              (cd ++ [(ki, Value.prim p)]) ++ ws' := by
            simp
          rw [hsplit2, hjson']

end Obs

namespace Obs

set_option maxHeartbeats 1000000 in
theorem buildSpec_step (m : Nat) (ihC : PatchSpec m) : BuildSpec (m + 1) := by
  intro kvs hb hwf
  have hkv : 2 * jsizeKv kvs ≤ m := by omega
  have hdisj : ∀ k ∈ kvs.map Prod.fst,
      lookupV ([] : List (String × Value)) k = none := by
    intro k _
    rfl
  obtain ⟨ws, evs, heqC, hjson⟩ := ihC kvs "" [] [] hkv hwf hdisj
  refine ⟨.node "" (kvs.map Prod.fst) ws, ?_, ?_⟩
  · rw [buildRoot.eq_def]
    rw [patchTop.eq_def]
    simp only [JVal.typeofObject, if_true, kvsOfJ_obj, heqC,
      Except.instMonad, Except.bind, List.nil_append, Bool.false_eq_true,
      if_false]
  · simp only [jsonV]
    exact congrArg JVal.obj hjson

theorem roundAux : ∀ n : Nat,
    BuildSpec n ∧ PrepSpec n ∧ ArrSpec n ∧ ObjSpec n ∧ PatchSpec n := by
  intro n
  induction n with
  | zero =>
    refine ⟨?_, ?_, ?_, ?_, ?_⟩
    · intro kvs hbound _
      omega
    · intro v tp tkeys tdata key s r hbound _ _
      have := jsize_pos v
      omega
    · intro xs path r i hbound hwf
      cases xs with
      | nil =>
        refine ⟨[], [], ?_, ?_⟩
        · rw [prepArrLoop]
        · simp only [jsonL]
      | cons x rest =>
        rw [jsizeL] at hbound
        have := jsize_pos x
        omega
    · intro kvs path r cp ck cd hbound hwf hdisj
      cases kvs with
      | nil =>
        refine ⟨[], [], ?_, ?_⟩
        · rw [prepObjLoop]
          simp
        · simp [jsonKeys]
      | cons kv rest =>
        obtain ⟨k, v⟩ := kv
        rw [jsizeKv] at hbound
        have := jsize_pos v
        omega
    · intro kvs cp ck cd hbound hwf hdisj
      cases kvs with
      | nil =>
        refine ⟨[], [], ?_, ?_⟩
        · rw [patchLoop]
          simp
        · simp [jsonKeys]
      | cons kv rest =>
        obtain ⟨k, v⟩ := kv
        rw [jsizeKv] at hbound
        have := jsize_pos v
        omega
  | succ m ih =>
    obtain ⟨ihB, ihP, ihA, ihO, ihC⟩ := ih
    exact ⟨buildSpec_step m ihC, prepSpec_step m ihA ihO,
      arrSpec_step m ihB ihA, objSpec_step m ihP ihO,
      patchSpec_step m ihP ihC⟩

end Obs

namespace Obs

/-- C8: for well-formed construction data (a plain object whose keys are
duplicate-free and dot-free at every level and whose members avoid
undefined), constructing an Observer from the data and serializing it with
json returns exactly the data.  The serialization is a JVal, which by
construction consists only of plain objects, arrays and scalars: none of
the bookkeeping fields (_path, _keys, _data) can occur in it. -/
theorem c8_json_roundtrip (kvs : List (String × JVal))
    (h : wfKv kvs = true) :
    ∃ t : Value, buildRoot (.obj kvs) = .ok t ∧ jsonV t = .obj kvs :=
  (roundAux (2 * jsizeKv kvs + 1)).1 kvs (le_refl _) h

/-- C8 (witness): the round trip on the data
{a: 5, b: {c: "x"}, d: [1, {e: true}]}. -/
theorem c8_json_roundtrip_witness :
    wfKv [("a", JVal.prim (.num 5)),
          ("b", .obj [("c", .prim (.str "x"))]),
          ("d", .arr [.prim (.num 1), .obj [("e", .prim (.bool true))]])] =
      true ∧
    ∃ t : Value,
      buildRoot (.obj [("a", JVal.prim (.num 5)),
          ("b", .obj [("c", .prim (.str "x"))]),
          ("d", .arr [.prim (.num 1), .obj [("e", .prim (.bool true))]])]) =
        .ok t ∧
      jsonV t = .obj [("a", JVal.prim (.num 5)),
          ("b", .obj [("c", .prim (.str "x"))]),
          ("d", .arr [.prim (.num 1), .obj [("e", .prim (.bool true))]])] := by
  refine ⟨by decide, ?_⟩
  exact c8_json_roundtrip _ (by decide)

end Obs
